import Mathlib

/-!
# mypr: discovery events, aggregation and rendering

A shallow embedding of `mypr.go`.  The program lists the open pull requests of
the configured user over a set of repositories, sends one `Comment` value per
discovered request and per review comment over a channel, folds the channel
into `Info.Comments` (task id → repository slug → `PR`) and prints the result.

* Go maps with string keys are association lists (`GoMap`): a lookup returns
  the value stored under the key, a store replaces it in place or adds a new
  entry.  Iteration order of a Go map is unspecified; nothing below depends
  on it.
* The types of the external package `stash` are modelled with the fields the
  program reads.
* The `trace` debug output is not modelled.
-/

set_option autoImplicit false
set_option linter.dupNamespace false

namespace Mypr

/-! ## Go maps keyed by strings -/

/-- A Go `map[string]V`: the entries, at most one per key when built by `set`. -/
abbrev GoMap (V : Type) := List (String × V)

namespace GoMap

variable {V : Type}

/-- The two-value lookup `v, ok := m[k]`; `none` stands for `ok == false`. -/
def get : GoMap V → String → Option V
  | [], _ => none
  | (k', v) :: rest, k => if k' = k then some v else get rest k

/-- The store `m[k] = v`. -/
def set : GoMap V → String → V → GoMap V
  | [], k, v => [(k, v)]
  | (k', v') :: rest, k, v => if k' = k then (k, v) :: rest else (k', v') :: set rest k v

/-- The keys of the map. -/
def keys (m : GoMap V) : List String := m.map Prod.fst

/-- The sum of a measure over the values of the map. -/
def sumBy (f : V → Nat) (m : GoMap V) : Nat := (m.map fun e => f e.2).sum

end GoMap

/-! ## The `stash` data the program reads -/

namespace Stash

/-- `stash.Repository`: `Project.Key` and `Slug`. -/
structure Repository where
  ProjectKey : String
  Slug : String
  deriving DecidableEq, Repr

/-- One entry of `stash.PullRequest.Reviewers`: `User.Name` and `Status`. -/
structure Reviewer where
  UserName : String
  Status : String
  deriving DecidableEq, Repr

/-- `stash.PullRequest`: `ID`, `FromRef.DisplayID`, `Author.User.Slug`,
`Reviewers` and the `Href`s of `Links.Self`. -/
structure PullRequest where
  ID : Int
  FromRefDisplayID : String
  AuthorUserSlug : String
  Reviewers : List Reviewer
  LinksSelf : List String
  deriving DecidableEq, Repr

/-- `stash.Comment`: `Author.Name`, `Text` and the replies `Comments`. -/
inductive Comment where
  | mk (AuthorName : String) (Text : String) (Comments : List Comment)
  deriving Repr

namespace Comment

/-- The field `Author.Name`. -/
def AuthorName : Comment → String
  | mk a _ _ => a

/-- The field `Text`. -/
def Text : Comment → String
  | mk _ t _ => t

/-- The field `Comments`. -/
def Comments : Comment → List Comment
  | mk _ _ cs => cs

end Comment

end Stash

/-- The zero value `stash.Comment{}` that `discoverComments` sends (line 181). -/
def sentinel : Stash.Comment := Stash.Comment.mk "" "" []

/-- A comment with empty text and no replies. -/
def isSentinel (c : Stash.Comment) : Bool :=
  decide (c.Text = "") && c.Comments.isEmpty

/-! ## The program's own types -/

/-- The channel element `type Comment struct` (lines 275-280). -/
structure Comment where
  TaskID : String
  Repository : String
  PullRequest : Stash.PullRequest
  Comment : Stash.Comment

/-- The record `type PR struct` (lines 254-257). -/
structure PR where
  PullRequest : Stash.PullRequest
  Comments : List Stash.Comment

/-- The type of `Info.Comments` (line 241): task id → repository → `PR`. -/
abbrev Info := GoMap (GoMap PR)

/-! ## The aggregation loop of `main` (lines 139-157) -/

/-- One iteration of `for c := range commentsCh` (lines 140-156). -/
def aggregateStep (info : Info) (c : Comment) : Info :=
  let task : GoMap PR :=
    match info.get c.TaskID with
    | some task => task
    | none => []
  let repo : PR :=
    match task.get c.Repository with
    | none => { PullRequest := c.PullRequest, Comments := [c.Comment] }
    | some repo => { repo with Comments := repo.Comments ++ [c.Comment] }
  info.set c.TaskID (task.set c.Repository repo)

/-- The whole loop, started on the empty `Info` of lines 135-137. -/
def aggregate (cs : List Comment) : Info :=
  cs.foldl aggregateStep []

/-- The record stored under a (task id, repository) pair, if any. -/
def Info.find (info : Info) (taskID repository : String) : Option PR :=
  match info.get taskID with
  | none => none
  | some task => task.get repository

/-- All records of the result, task by task. -/
def Info.records (info : Info) : List PR :=
  info.flatMap fun t => t.2.map Prod.snd

/-- The sum of the comment-list lengths over all records. -/
def Info.totalComments (info : Info) : Nat :=
  (info.records.map fun p => p.Comments.length).sum

/-- The events of a sequence that belong to a (task id, repository) pair, in
arrival order. -/
def eventsFor (taskID repository : String) (cs : List Comment) : List Comment :=
  cs.filter fun c => decide (c.TaskID = taskID ∧ c.Repository = repository)

/-- Every key occurs once, in the outer map and in every inner map. -/
def Info.WellFormed (info : Info) : Prop :=
  info.keys.Nodup ∧ ∀ e ∈ info, e.2.keys.Nodup

/-- The record that a non-empty run of events of one pair builds: the pull
request of the first event and the comments of all of them. -/
def recordOf : List Comment → Option PR
  | [] => none
  | c :: rest => some { PullRequest := c.PullRequest, Comments := (c :: rest).map (·.Comment) }

/-! ## The workers (lines 162-212) -/

/-- A Go `error`: `none` is `nil`, `some msg` an error with that message. -/
abbrev GoError := Option String

/-- The methods of the interface `stash.Stash` that the workers call.  Each
returns the Go pair (value, error); both components can be set. -/
structure Stash.Stash where
  GetPullRequests : String → String → String → List Stash.PullRequest × GoError
  GetPullRequestChanges : String → String → Int → List String × GoError
  GetComments : String → String → String → String → List Stash.Comment × GoError

/-- The actions of a goroutine that other goroutines or the outside can observe. -/
inductive Effect where
  /-- The call `c.GetPullRequests(projectKey, slug, state)`. -/
  | listPullRequests (projectKey slug state : String)
  /-- The call `c.GetPullRequestChanges(projectKey, slug, id)`. -/
  | listChanges (projectKey slug : String) (id : Int)
  /-- The call `c.GetComments(projectKey, slug, id, path)`. -/
  | listComments (projectKey slug id path : String)
  /-- The call `log.Println(err)`. -/
  | log (err : String)
  /-- The send `commentsCh <- c`. -/
  | send (c : Comment)
  /-- The call `wg.Add(1)`. -/
  | add
  /-- The statement `go discoverComments(c, r, &wg, commentsCh)`. -/
  | goDiscoverComments (r : Stash.Repository)
  /-- The statement `go getComments(c, r, pr, f, wg, commentsCh)`. -/
  | goGetComments (r : Stash.Repository) (pr : Stash.PullRequest) (path : String)
  /-- The deferred `wg.Done()`. -/
  | done
  /-- The call `wg.Wait()`. -/
  | wait
  /-- The call `close(commentsCh)`. -/
  | close

/-- `strconv.Itoa`. -/
def Itoa (i : Int) : String := toString i

/-- The body of the loop over the pull requests in `discoverComments`
(lines 172-193). -/
def discoverPR (c : Stash.Stash) (user : String) (r : Stash.Repository) (pr : Stash.PullRequest) :
    List Effect :=
  if pr.AuthorUserSlug ≠ user then []
  else
    [Effect.send
        { TaskID := pr.FromRefDisplayID, Repository := r.Slug, PullRequest := pr,
          Comment := Stash.Comment.mk "" "" [] },
      Effect.listChanges r.ProjectKey r.Slug pr.ID] ++
    match c.GetPullRequestChanges r.ProjectKey r.Slug pr.ID with
    | (_, some err) => [Effect.log err]
    | (files, none) => files.flatMap fun f => [Effect.add, Effect.goGetComments r pr f]

/-- `discoverComments` (lines 162-195); `user` is `cfg.User`. -/
def discoverComments (c : Stash.Stash) (user : String) (r : Stash.Repository) : List Effect :=
  [Effect.listPullRequests r.ProjectKey r.Slug "OPEN"] ++
  (match c.GetPullRequests r.ProjectKey r.Slug "OPEN" with
    | (_, some err) => [Effect.log err]
    | (prs, none) => prs.flatMap (discoverPR c user r)) ++
  [Effect.done]

/-- `getComments` (lines 197-212). -/
def getComments (c : Stash.Stash) (r : Stash.Repository) (pr : Stash.PullRequest) (path : String) :
    List Effect :=
  let res := c.GetComments r.ProjectKey r.Slug (Itoa pr.ID) path
  [Effect.listComments r.ProjectKey r.Slug (Itoa pr.ID) path] ++
  (match res.2 with
    | some err => [Effect.log err]
    | none => []) ++
  res.1.map (fun comment => Effect.send
    { TaskID := pr.FromRefDisplayID, Repository := r.Slug, PullRequest := pr,
      Comment := comment }) ++
  [Effect.done]

/-- The values a worker sends on the channel, in order. -/
def sent : List Effect → List Comment
  | [] => []
  | Effect.send c :: rest => c :: sent rest
  | _ :: rest => sent rest

/-- The `getComments` workers a worker starts, in order. -/
def spawned : List Effect → List (Stash.Repository × Stash.PullRequest × String)
  | [] => []
  | Effect.goGetComments r pr f :: rest => (r, pr, f) :: spawned rest
  | _ :: rest => spawned rest

/-- The calls of `GetPullRequestChanges` a worker makes, in order. -/
def changesListed : List Effect → List (String × String × Int)
  | [] => []
  | Effect.listChanges k s i :: rest => (k, s, i) :: changesListed rest
  | _ :: rest => changesListed rest

/-- Everything sent for one repository: by its `discoverComments` worker and
by the `getComments` workers that one starts. -/
def repositoryEvents (c : Stash.Stash) (user : String) (r : Stash.Repository) : List Comment :=
  sent (discoverComments c user r) ++
  (spawned (discoverComments c user r)).flatMap fun w => sent (getComments c w.1 w.2.1 w.2.2)

/-- Everything sent during a run over the repositories of lines 126-130,
worker by worker. -/
def allEvents (c : Stash.Stash) (user : String) (repos : List Stash.Repository) : List Comment :=
  repos.flatMap (repositoryEvents c user)

/-! ## The goroutines of `main` (lines 122-157)

The goroutine of lines 124-133 starts one `discoverComments` worker for every
repository, waits on the `WaitGroup` and closes the channel; the loop of lines
139-157 receives what the workers send.  A state of the run holds what every
goroutine still has to do; a step runs the next action of one goroutine, so a
schedule (the list of the goroutines that step) is one interleaving. -/

/-- The goroutine of lines 124-133. -/
def orchestrate (repos : List Stash.Repository) : List Effect :=
  (repos.flatMap fun r => [Effect.add, Effect.goDiscoverComments r]) ++
    [Effect.wait, Effect.close]

/-- A state of the run. -/
structure System where
  /-- What the goroutine of lines 124-133 still has to do. -/
  orchestrator : List Effect
  /-- What every worker started so far still has to do; `[]` when it has returned. -/
  workers : List (List Effect)
  /-- The counter of the `WaitGroup`. -/
  wg : Nat
  /-- The values that the loop of lines 139-157 has received, in order. -/
  received : List Comment
  /-- How many times `close(commentsCh)` has run. -/
  closes : Nat
  /-- Whether a panic has occurred: a negative `WaitGroup` counter, a send on
  the closed channel or a second close. -/
  fault : Bool

/-- The state in which the goroutine of lines 124-133 starts. -/
def System.init (repos : List Stash.Repository) : System :=
  { orchestrator := orchestrate repos, workers := [], wg := 0, received := [], closes := 0,
    fault := false }

/-- The action of a goroutine on the shared state; `none` when the goroutine
has to wait (`wg.Wait()` on a counter that is not zero). -/
def exec (c : Stash.Stash) (user : String) (s : System) : Effect → Option System
  | Effect.listPullRequests _ _ _ => some s
  | Effect.listChanges _ _ _ => some s
  | Effect.listComments _ _ _ _ => some s
  | Effect.log _ => some s
  | Effect.send ev =>
    some (if s.closes = 0 then { s with received := s.received ++ [ev] }
      else { s with fault := true })
  | Effect.add => some { s with wg := s.wg + 1 }
  | Effect.goDiscoverComments r =>
    some { s with workers := s.workers ++ [discoverComments c user r] }
  | Effect.goGetComments r pr f =>
    some { s with workers := s.workers ++ [getComments c r pr f] }
  | Effect.done =>
    some (if s.wg = 0 then { s with fault := true } else { s with wg := s.wg - 1 })
  | Effect.wait => if s.wg = 0 then some s else none
  | Effect.close =>
    some (if s.closes = 0 then { s with closes := 1 }
      else { s with closes := s.closes + 1, fault := true })

/-- One step of goroutine `i`: 0 is the goroutine of lines 124-133 and `i + 1`
the worker `i`; `none` when the goroutine has returned or has to wait. -/
def step (c : Stash.Stash) (user : String) (s : System) : Nat → Option System
  | 0 =>
    match s.orchestrator with
    | [] => none
    | e :: rest => exec c user { s with orchestrator := rest } e
  | i + 1 =>
    match s.workers[i]? with
    | none => none
    | some [] => none
    | some (e :: rest) => exec c user { s with workers := s.workers.set i rest } e

/-- The state after a schedule, when every step of it can be taken. -/
def runSchedule (c : Stash.Stash) (user : String) (s : System) : List Nat → Option System
  | [] => some s
  | i :: rest =>
    match step c user s i with
    | none => none
    | some s' => runSchedule c user s' rest

/-- The states of the runs over a list of repositories. -/
def Reachable (c : Stash.Stash) (user : String) (repos : List Stash.Repository) (s : System) :
    Prop :=
  ∃ schedule, runSchedule c user (System.init repos) schedule = some s

/-- Whether the next action of a goroutine starts a worker: the goroutine has
run `wg.Add(1)` for a worker that is not started yet. -/
def aboutToStart : List Effect → Bool
  | Effect.goDiscoverComments _ :: _ => true
  | Effect.goGetComments _ _ _ :: _ => true
  | _ => false

/-- Whether a worker is running: it has not yet run its `wg.Done()`. -/
def running (w : List Effect) : Bool := !w.isEmpty

/-- Whether a goroutine still has a worker to start. -/
def hasToStart (code : List Effect) : Bool :=
  code.any fun e =>
    match e with
    | Effect.goDiscoverComments _ => true
    | Effect.goGetComments _ _ _ => true
    | _ => false

/-- What a worker adds to the count of the registered workers: itself while it
runs and the worker it is about to start. -/
def weight (w : List Effect) : Nat :=
  (if running w then 1 else 0) + (if aboutToStart w then 1 else 0)

/-- The workers that are registered on the `WaitGroup` and have not yet
deregistered: those running and those about to be started. -/
def registered (s : System) : Nat :=
  (if aboutToStart s.orchestrator then 1 else 0) + (s.workers.map weight).sum

/-- The steps that an action of a worker stands for: itself and, for the start
of a `getComments` worker, the actions of that worker. -/
def workerSteps (c : Stash.Stash) : Effect → Nat
  | Effect.goGetComments r pr f => 1 + (getComments c r pr f).length
  | _ => 1

/-- The steps that an action stands for: itself and the steps of the worker it
starts, if any. -/
def stepsOf (c : Stash.Stash) (user : String) : Effect → Nat
  | Effect.goDiscoverComments r => 1 + ((discoverComments c user r).map (workerSteps c)).sum
  | e => workerSteps c e

/-- The steps that a state has left. -/
def stepsLeft (c : Stash.Stash) (user : String) (s : System) : Nat :=
  (s.orchestrator.map (stepsOf c user)).sum +
    (s.workers.map fun w => (w.map (stepsOf c user)).sum).sum

/-- The events that an action stands for: the event of a send and the events
of the worker that a start starts. -/
def pendingOf (c : Stash.Stash) (user : String) : Effect → List Comment
  | Effect.send ev => [ev]
  | Effect.goGetComments r pr f => sent (getComments c r pr f)
  | Effect.goDiscoverComments r => repositoryEvents c user r
  | _ => []

/-- The events that are still to be sent in a state. -/
def pending (c : Stash.Stash) (user : String) (s : System) : List Comment :=
  s.orchestrator.flatMap (pendingOf c user) ++
    s.workers.flatMap fun w => w.flatMap (pendingOf c user)

/-- The actions that touch neither the `WaitGroup` nor the set of goroutines
nor close the channel: the calls of the client, the log and the sends. -/
def Effect.isPlain : Effect → Bool
  | Effect.listPullRequests _ _ _ => true
  | Effect.listChanges _ _ _ => true
  | Effect.listComments _ _ _ _ => true
  | Effect.log _ => true
  | Effect.send _ => true
  | _ => false

/-- The shape of what a worker has to do from its start on: plain actions and
starts of `getComments` workers, each right after its `wg.Add(1)`, and the
`wg.Done()` once, as the last action. -/
inductive WorkerCode : List Effect → Prop where
  | done : WorkerCode [Effect.done]
  | plain (e : Effect) (rest : List Effect) :
      e.isPlain = true → WorkerCode rest → WorkerCode (e :: rest)
  | start (r : Stash.Repository) (pr : Stash.PullRequest) (f : String) (rest : List Effect) :
      WorkerCode rest → WorkerCode (Effect.add :: Effect.goGetComments r pr f :: rest)

/-- The shape of what a worker still has to do at any time: nothing, or a code
of that shape, possibly after the `wg.Add(1)` of a start. -/
def WorkerState (w : List Effect) : Prop :=
  w = [] ∨ WorkerCode w ∨
    ∃ r pr f rest, w = Effect.goGetComments r pr f :: rest ∧ WorkerCode rest

/-- The shape of the goroutine of lines 124-133 from its start on. -/
inductive OrchestratorCode : List Effect → Prop where
  | wait : OrchestratorCode [Effect.wait, Effect.close]
  | start (r : Stash.Repository) (rest : List Effect) :
      OrchestratorCode rest →
      OrchestratorCode (Effect.add :: Effect.goDiscoverComments r :: rest)

/-- The shape of what the goroutine of lines 124-133 still has to do. -/
def OrchestratorState (o : List Effect) : Prop :=
  o = [] ∨ o = [Effect.close] ∨ OrchestratorCode o ∨
    ∃ r rest, o = Effect.goDiscoverComments r :: rest ∧ OrchestratorCode rest

/-- What holds in every state of a run. -/
structure Invariant (s : System) : Prop where
  fault : s.fault = false
  count : s.wg = registered s
  workers : ∀ w ∈ s.workers, WorkerState w
  orchestrator : OrchestratorState s.orchestrator
  closes : s.closes = if s.orchestrator.isEmpty then 1 else 0
  finished : s.orchestrator = [] ∨ s.orchestrator = [Effect.close] → ∀ w ∈ s.workers, w = []

/-- What the `discoverComments` worker of a repository whose listing fails
with `err` still has to do, at any time. -/
def Inert (r : Stash.Repository) (err : String) (w : List Effect) : Prop :=
  w = [Effect.listPullRequests r.ProjectKey r.Slug "OPEN", Effect.log err, Effect.done] ∨
    w = [Effect.log err, Effect.done] ∨ w = [Effect.done] ∨ w = []

/-- A state of the run over a list of repositories and a state of the run over
the list without the repository `r`, whose listing fails with `err`, that show
the same to the loop of `main`: the second run has neither the `wg.Add(1)`
and the start for `r` nor the worker of `r`. -/
structure Sim (r : Stash.Repository) (err : String) (a b : System) : Prop where
  received : a.received = b.received
  closes : a.closes = b.closes
  fault : a.fault = b.fault
  phase :
    (∃ o1 o2, a.orchestrator = o1 ++ Effect.add :: Effect.goDiscoverComments r :: o2 ∧
        b.orchestrator = o1 ++ o2 ∧ a.workers = b.workers ∧ a.wg = b.wg) ∨
    (a.orchestrator = Effect.goDiscoverComments r :: b.orchestrator ∧
        a.workers = b.workers ∧ a.wg = b.wg + 1) ∨
    (a.orchestrator = b.orchestrator ∧
      ∃ ws1 ws2 w, Inert r err w ∧ a.workers = ws1 ++ w :: ws2 ∧ b.workers = ws1 ++ ws2 ∧
        a.wg = b.wg + (if running w then 1 else 0))

/-! ## Rendering (lines 214-237) -/

/-- `statusColor` (lines 214-228). -/
def statusColor (text status : String) : String :=
  let color :=
    if status = "APPROVED" then "\x1b[0;32m"
    else if status = "UNAPPROVED" then "\x1b[0;36m"
    else if status = "NEEDS_WORK" then "\x1b[0;33m"
    else ""
  color ++ text ++ "\x1b[0m"

/-- The read `review[name]` of a Go `map[string]string`: the empty string when
the key is absent. -/
def reviewOf (review : GoMap String) (name : String) : String :=
  (review.get name).getD ""

mutual
/-- The body of the loop of `printComments` (lines 232-235) for one comment:
the `Printf` output when the text is not empty, then the replies. -/
def printComment (indent : String) (review : GoMap String) : Stash.Comment → List String
  | Stash.Comment.mk author text replies =>
    (if text ≠ "" then
      [indent ++ " " ++ statusColor author (reviewOf review author) ++ ": " ++ text ++ "\n"]
    else []) ++ printCommentsAux (indent ++ "  ") review replies
/-- The loop of `printComments` (lines 231-236): the list of `Printf` outputs. -/
def printCommentsAux (indent : String) (review : GoMap String) : List Stash.Comment → List String
  | [] => []
  | c :: cs => printComment indent review c ++ printCommentsAux indent review cs
end

/-- `printComments` (lines 230-237), with the arguments in the order of the
source; the result is the list of the strings written, one per `Printf`. -/
def printComments (indent : String) (comments : List Stash.Comment) (review : GoMap String) :
    List String :=
  printCommentsAux indent review comments

/-! ## Rendering, as described -/

mutual
/-- A comment and the comments below it in depth-first pre-order, each with
its nesting depth. -/
def preorder (depth : Nat) : Stash.Comment → List (Nat × Stash.Comment)
  | Stash.Comment.mk author text replies =>
    (depth, Stash.Comment.mk author text replies) :: preorderAll (depth + 1) replies
/-- The comments of a forest in depth-first pre-order, each with its depth. -/
def preorderAll (depth : Nat) : List Stash.Comment → List (Nat × Stash.Comment)
  | [] => []
  | c :: cs => preorder depth c ++ preorderAll depth cs
end

/-- The line of a comment at a nesting depth: the indent extended by two
spaces per level, a space, the coloured author, a colon and the text. -/
def renderLine (indent : String) (review : GoMap String) (dc : Nat × Stash.Comment) : String :=
  indent ++ String.mk (List.replicate (2 * dc.1) ' ') ++ " " ++
    statusColor dc.2.AuthorName (reviewOf review dc.2.AuthorName) ++ ": " ++ dc.2.Text ++ "\n"

/-- What `printComments` is described to write: one line for every comment
with non-empty text, at every depth, in depth-first pre-order. -/
def printCommentsSpec (indent : String) (comments : List Stash.Comment)
    (review : GoMap String) : List String :=
  ((preorderAll 0 comments).filter fun dc => decide (dc.2.Text ≠ "")).map
    (renderLine indent review)

/-! ## Sample data -/

/-- A pull request of user "me" from the branch "PR-1". -/
def pr1 : Stash.PullRequest :=
  { ID := 1, FromRefDisplayID := "PR-1", AuthorUserSlug := "me", Reviewers := [], LinksSelf := [] }

/-- The event that `discoverComments` sends for `pr1` in the repository "svc". -/
def sentinelEvent1 : Comment :=
  { TaskID := "PR-1", Repository := "svc", PullRequest := pr1, Comment := sentinel }

/-- A review comment without replies. -/
def fixComment : Stash.Comment := Stash.Comment.mk "bob" "fix" []

/-- The event that `getComments` sends for `fixComment` on `pr1`. -/
def fixEvent1 : Comment :=
  { TaskID := "PR-1", Repository := "svc", PullRequest := pr1, Comment := fixComment }

/-- A pull request from the branch "PR-1" whose author is "Me", not "me". -/
def prOther : Stash.PullRequest :=
  { ID := 7, FromRefDisplayID := "PR-1", AuthorUserSlug := "Me", Reviewers := [], LinksSelf := [] }

/-- A pull request of user "me" from the branch "PR-3". -/
def pr3 : Stash.PullRequest :=
  { ID := 3, FromRefDisplayID := "PR-3", AuthorUserSlug := "me", Reviewers := [], LinksSelf := [] }

/-- The repository "svc" of project "A". -/
def repoA : Stash.Repository := { ProjectKey := "A", Slug := "svc" }

/-- The repository "api" of project "B". -/
def repoB : Stash.Repository := { ProjectKey := "B", Slug := "api" }

/-- The repository "web" of project "C". -/
def repoC : Stash.Repository := { ProjectKey := "C", Slug := "web" }

/-- The repository "svc" of project "D": the slug of `repoA` in another project. -/
def repoD : Stash.Repository := { ProjectKey := "D", Slug := "svc" }

/-- A client: project "A" lists `pr1` and `prOther`, the listing of project
"B" fails, every other project lists `pr3`; `pr1` changes the file "a.go",
the changes of other requests cannot be listed; every file has the comment
`fixComment`. -/
def client1 : Stash.Stash :=
  { GetPullRequests := fun projectKey _ _ =>
      if projectKey = "A" then ([pr1, prOther], none)
      else if projectKey = "B" then ([], some "502")
      else ([pr3], none)
    GetPullRequestChanges := fun _ _ id =>
      if id = 1 then (["a.go"], none) else ([], some "404")
    GetComments := fun _ _ _ _ => ([fixComment], none) }

/-- A client: project "A" lists `pr1`, every other project lists a request
with another id from the same branch; no request changes a file. -/
def client2 : Stash.Stash :=
  { GetPullRequests := fun projectKey _ _ =>
      if projectKey = "A" then ([pr1], none) else ([{ pr1 with ID := 2 }], none)
    GetPullRequestChanges := fun _ _ _ => ([], none)
    GetComments := fun _ _ _ _ => ([], none) }

/-- A client whose `GetComments` returns a comment together with an error. -/
def client3 : Stash.Stash :=
  { GetPullRequests := fun _ _ _ => ([pr1], none)
    GetPullRequestChanges := fun _ _ _ => (["a.go"], none)
    GetComments := fun _ _ _ _ => ([fixComment], some "boom") }

/-- The event that `discoverComments` sends for `pr3` in the repository "web". -/
def sentinelEvent3 : Comment :=
  { TaskID := "PR-3", Repository := "web", PullRequest := pr3, Comment := sentinel }

/-- A schedule of the run of `client1` over `repoA`, `repoB` and `repoC`: the
three workers are started, then the workers take turns, the worker of `repoC`
being the first to send. -/
def schedule3 : List Nat :=
  [0, 0, 0, 0, 0, 0, 3, 3, 1, 1, 1, 1, 1, 2, 2, 2, 4, 4, 3, 3, 3, 1, 4, 0, 0]

/-- The state at the end of `schedule3`. -/
def final3 : System :=
  { orchestrator := [], workers := [[], [], [], []], wg := 0,
    received := [sentinelEvent3, sentinelEvent1, fixEvent1], closes := 1, fault := false }

/-- A schedule of the run of `client1` over `repoA`: the goroutine of lines
124-133 starts the worker of the repository, the worker runs up to the start
of its `getComments` worker, that worker runs to its end, the first worker
returns, and the goroutine of lines 124-133 waits and closes. -/
def schedule1 : List Nat := [0, 0, 1, 1, 1, 1, 1, 2, 2, 2, 1, 0, 0]

/-- The state at the end of `schedule1`. -/
def final1 : System :=
  { orchestrator := [], workers := [[], []], wg := 0, received := [sentinelEvent1, fixEvent1],
    closes := 1, fault := false }

/-! # Theorems -/

/-! ## Facts about `GoMap` -/

namespace GoMap

variable {V : Type}

theorem get_set_self (m : GoMap V) (k : String) (v : V) : (m.set k v).get k = some v := by
  induction m with
  | nil => simp [set, get]
  | cons hd tl ih =>
    obtain ⟨k', v'⟩ := hd
    by_cases h : k' = k
    · simp [set, get, h]
    · simp [set, get, h, ih]

theorem get_set_other (m : GoMap V) (k k' : String) (v : V) (h : k' ≠ k) :
    (m.set k v).get k' = m.get k' := by
  induction m with
  | nil => simp [set, get, Ne.symm h]
  | cons hd tl ih =>
    obtain ⟨k0, v0⟩ := hd
    by_cases h0 : k0 = k
    · subst h0
      simp [set, get, Ne.symm h]
    · by_cases h1 : k0 = k'
      · subst h1
        simp [set, get, h0]
      · simp [set, get, h0, h1, ih]

theorem get_eq_none_iff (m : GoMap V) (k : String) : m.get k = none ↔ k ∉ m.keys := by
  induction m with
  | nil => simp [get, keys]
  | cons hd tl ih =>
    obtain ⟨k0, v0⟩ := hd
    by_cases h0 : k0 = k
    · simp [get, keys, h0]
    · have ih2 : get tl k = none ↔ k ∉ List.map Prod.fst tl := ih
      simp [get, keys, h0, ih2, Ne.symm h0]

theorem keys_set (m : GoMap V) (k : String) (v : V) :
    (m.set k v).keys = if k ∈ m.keys then m.keys else m.keys ++ [k] := by
  induction m with
  | nil => simp [set, keys]
  | cons hd tl ih =>
    obtain ⟨k0, v0⟩ := hd
    have ih2 : List.map Prod.fst (set tl k v)
        = if k ∈ List.map Prod.fst tl then List.map Prod.fst tl
          else List.map Prod.fst tl ++ [k] := ih
    by_cases h0 : k0 = k
    · simp [set, keys, h0]
    · by_cases h1 : k ∈ List.map Prod.fst tl
      · simp [set, keys, h0, ih2, h1]
      · simp [set, keys, h0, ih2, h1, Ne.symm h0]

theorem keys_set_nodup (m : GoMap V) (k : String) (v : V) (h : m.keys.Nodup) :
    (m.set k v).keys.Nodup := by
  rw [keys_set]
  split
  · exact h
  · rename_i hk
    exact List.Nodup.append h (List.nodup_singleton k) (by simpa using hk)

theorem mem_of_get (m : GoMap V) (k : String) (v : V) (h : m.get k = some v) : (k, v) ∈ m := by
  induction m with
  | nil => simp [get] at h
  | cons hd tl ih =>
    obtain ⟨k0, v0⟩ := hd
    by_cases h0 : k0 = k
    · simp [get, h0] at h
      simp [h0, h]
    · simp [get, h0] at h
      exact List.mem_cons_of_mem _ (ih h)

theorem get_of_mem (m : GoMap V) (k : String) (v : V) (hn : m.keys.Nodup) (h : (k, v) ∈ m) :
    m.get k = some v := by
  induction m with
  | nil => simp at h
  | cons hd tl ih =>
    obtain ⟨k0, v0⟩ := hd
    have hn2 : k0 ∉ List.map Prod.fst tl ∧ (List.map Prod.fst tl).Nodup := by
      simpa [keys] using hn
    rcases List.mem_cons.1 h with h1 | h1
    · simp only [Prod.mk.injEq] at h1
      simp [get, h1.1, h1.2]
    · have hk : k ∈ List.map Prod.fst tl := List.mem_map.2 ⟨(k, v), h1, rfl⟩
      have hne : k0 ≠ k := fun e => hn2.1 (e ▸ hk)
      simp only [get, hne, if_false]
      exact ih hn2.2 h1

theorem mem_set (m : GoMap V) (k : String) (v : V) (e : String × V) (h : e ∈ m.set k v) :
    e = (k, v) ∨ e ∈ m := by
  induction m with
  | nil => simpa [set] using h
  | cons hd tl ih =>
    obtain ⟨k0, v0⟩ := hd
    by_cases h0 : k0 = k
    · simp only [set, h0, if_true, List.mem_cons] at h
      rcases h with h | h
      · exact Or.inl h
      · exact Or.inr (List.mem_cons_of_mem _ h)
    · simp only [set, h0, if_false, List.mem_cons] at h
      rcases h with h | h
      · exact Or.inr (h ▸ List.mem_cons_self _ _)
      · rcases ih h with h | h
        · exact Or.inl h
        · exact Or.inr (List.mem_cons_of_mem _ h)

theorem sumBy_set (f : V → Nat) (m : GoMap V) (k : String) (v : V) :
    sumBy f (m.set k v) + (match m.get k with | some o => f o | none => 0) = sumBy f m + f v := by
  induction m with
  | nil => simp [set, get, sumBy]
  | cons hd tl ih =>
    obtain ⟨k0, v0⟩ := hd
    by_cases h0 : k0 = k
    · simp [set, get, sumBy, h0]
      omega
    · simp only [set, get, h0, if_false]
      simp only [sumBy, List.map_cons, List.sum_cons] at ih ⊢
      omega

end GoMap

/-! ## Facts about the aggregation loop -/

theorem find_aggregateStep (info : Info) (c : Comment) (t r : String) :
    (aggregateStep info c).find t r =
      if c.TaskID = t ∧ c.Repository = r then
        some (match info.find t r with
          | none => { PullRequest := c.PullRequest, Comments := [c.Comment] }
          | some p => { p with Comments := p.Comments ++ [c.Comment] })
      else info.find t r := by
  by_cases ht : c.TaskID = t
  · subst ht
    by_cases hr : c.Repository = r
    · subst hr
      simp only [aggregateStep, Info.find, GoMap.get_set_self, and_self, if_true]
      cases h1 : GoMap.get info c.TaskID with
      | none => simp [GoMap.get]
      | some task => cases h2 : GoMap.get task c.Repository <;> simp [h2]
    · simp only [aggregateStep, Info.find, GoMap.get_set_self, hr, and_false, if_false]
      rw [GoMap.get_set_other _ _ _ _ (Ne.symm hr)]
      cases h1 : GoMap.get info c.TaskID with
      | none => simp [GoMap.get]
      | some task => simp
  · simp only [aggregateStep, Info.find, ht, false_and, if_false]
    rw [GoMap.get_set_other _ _ _ _ (Ne.symm ht)]

theorem aggregate_append (cs : List Comment) (c : Comment) :
    aggregate (cs ++ [c]) = aggregateStep (aggregate cs) c := by
  simp [aggregate, List.foldl_append]

theorem recordOf_append (l : List Comment) (c : Comment) :
    recordOf (l ++ [c]) =
      some (match recordOf l with
        | none => { PullRequest := c.PullRequest, Comments := [c.Comment] }
        | some p => { p with Comments := p.Comments ++ [c.Comment] }) := by
  cases l with
  | nil => simp [recordOf]
  | cons hd tl => simp [recordOf]

/-- The record of a pair is built from the events of that pair alone. -/
theorem find_aggregate (cs : List Comment) (t r : String) :
    (aggregate cs).find t r = recordOf (eventsFor t r cs) := by
  induction cs using List.reverseRecOn with
  | nil => simp [aggregate, Info.find, GoMap.get, eventsFor, recordOf]
  | append_singleton cs c ih =>
    rw [aggregate_append, find_aggregateStep, ih]
    by_cases h : c.TaskID = t ∧ c.Repository = r
    · have : eventsFor t r (cs ++ [c]) = eventsFor t r cs ++ [c] := by
        simp [eventsFor, List.filter_append, h]
      rw [this, recordOf_append, if_pos h]
    · have : eventsFor t r (cs ++ [c]) = eventsFor t r cs := by
        simp [eventsFor, List.filter_append, h]
      rw [this, if_neg h]

theorem totalComments_eq (info : Info) :
    info.totalComments = GoMap.sumBy (GoMap.sumBy fun p => p.Comments.length) info := by
  induction info with
  | nil => simp [Info.totalComments, Info.records, GoMap.sumBy]
  | cons hd tl ih =>
    simp only [Info.totalComments, Info.records, GoMap.sumBy, List.flatMap_cons, List.map_append,
      List.sum_append, List.map_cons, List.sum_cons, List.map_map] at ih ⊢
    rw [ih]
    rfl

theorem totalComments_aggregateStep (info : Info) (c : Comment) :
    (aggregateStep info c).totalComments = info.totalComments + 1 := by
  rw [totalComments_eq, totalComments_eq]
  have houter := GoMap.sumBy_set (GoMap.sumBy fun p : PR => p.Comments.length) info c.TaskID
  simp only [aggregateStep]
  cases h1 : GoMap.get info c.TaskID with
  | none =>
    have h := houter (GoMap.set [] c.Repository
      { PullRequest := c.PullRequest, Comments := [c.Comment] })
    simp only [h1] at h
    simp only [GoMap.get]
    simpa [GoMap.set, GoMap.sumBy] using h
  | some task =>
    have hinner := GoMap.sumBy_set (fun p : PR => p.Comments.length) task c.Repository
    cases h2 : GoMap.get task c.Repository with
    | none =>
      have hi := hinner { PullRequest := c.PullRequest, Comments := [c.Comment] }
      have h := houter (GoMap.set task c.Repository
        { PullRequest := c.PullRequest, Comments := [c.Comment] })
      simp only [h1, h2] at h hi
      simp only [List.length_singleton] at hi
      dsimp only
      omega
    | some repo =>
      have hi := hinner { repo with Comments := repo.Comments ++ [c.Comment] }
      have h := houter (GoMap.set task c.Repository
        { repo with Comments := repo.Comments ++ [c.Comment] })
      simp only [h1, h2] at h hi
      simp only [List.length_append, List.length_singleton] at hi
      dsimp only
      omega

theorem totalComments_aggregate (cs : List Comment) :
    (aggregate cs).totalComments = cs.length := by
  induction cs using List.reverseRecOn with
  | nil => simp [aggregate, Info.totalComments, Info.records]
  | append_singleton cs c ih =>
    rw [aggregate_append, totalComments_aggregateStep, ih]
    simp

theorem wellFormed_aggregateStep (info : Info) (c : Comment) (h : info.WellFormed) :
    (aggregateStep info c).WellFormed := by
  refine ⟨GoMap.keys_set_nodup _ _ _ h.1, ?_⟩
  intro e he
  rcases GoMap.mem_set _ _ _ _ he with he | he
  · subst he
    apply GoMap.keys_set_nodup
    cases h1 : GoMap.get info c.TaskID with
    | none => simp [GoMap.keys]
    | some task => exact h.2 _ (GoMap.mem_of_get _ _ _ h1)
  · exact h.2 e he

theorem wellFormed_aggregate (cs : List Comment) : (aggregate cs).WellFormed := by
  induction cs using List.reverseRecOn with
  | nil => exact ⟨by simp [aggregate, GoMap.keys], by simp [aggregate]⟩
  | append_singleton cs c ih =>
    rw [aggregate_append]
    exact wellFormed_aggregateStep _ _ ih

/-- In a well-formed result the records are the values found under the pairs. -/
theorem mem_records_iff (info : Info) (h : info.WellFormed) (p : PR) :
    p ∈ info.records ↔ ∃ t r, info.find t r = some p := by
  constructor
  · intro hp
    simp only [Info.records, List.mem_flatMap, List.mem_map] at hp
    obtain ⟨⟨t, task⟩, ht, ⟨r, p'⟩, hr, rfl⟩ := hp
    refine ⟨t, r, ?_⟩
    simp only [Info.find, GoMap.get_of_mem _ _ _ h.1 ht]
    exact GoMap.get_of_mem _ _ _ (h.2 _ ht) hr
  · rintro ⟨t, r, hf⟩
    simp only [Info.find] at hf
    cases h1 : GoMap.get info t with
    | none => simp [h1] at hf
    | some task =>
      simp only [h1] at hf
      simp only [Info.records, List.mem_flatMap, List.mem_map]
      exact ⟨(t, task), GoMap.mem_of_get _ _ _ h1, (r, p), GoMap.mem_of_get _ _ _ hf, rfl⟩

theorem recordOf_eq_some (l : List Comment) (p : PR) (h : recordOf l = some p) :
    ∃ c rest, l = c :: rest ∧ p.PullRequest = c.PullRequest ∧
      p.Comments = l.map (·.Comment) := by
  cases l with
  | nil => simp [recordOf] at h
  | cons c rest =>
    simp only [recordOf, Option.some.injEq] at h
    subst h
    exact ⟨c, rest, rfl, rfl, rfl⟩

theorem find?_eq_head?_eventsFor (cs : List Comment) (t r : String) :
    cs.find? (fun c => decide (c.TaskID = t ∧ c.Repository = r)) = (eventsFor t r cs).head? := by
  induction cs with
  | nil => rfl
  | cons c cs ih =>
    by_cases h : c.TaskID = t ∧ c.Repository = r
    · simp [eventsFor, List.find?, List.filter, h]
    · simp only [eventsFor] at ih
      simp [eventsFor, List.find?, List.filter, h, ih]

/-- Two arrival orders of the same events give every pair a record in both
results or in neither, with the same comments up to their order, and with
the same pull request when the first events of the pair carry the same one. -/
theorem find_aggregate_of_perm (cs cs' : List Comment) (hperm : cs.Perm cs') (t r : String) :
    ((aggregate cs).find t r).isSome = ((aggregate cs').find t r).isSome ∧
    ∀ p p', (aggregate cs).find t r = some p → (aggregate cs').find t r = some p' →
      p.Comments.Perm p'.Comments ∧
      ((∀ a ∈ cs, ∀ b ∈ cs, a.TaskID = b.TaskID → a.Repository = b.Repository →
          a.PullRequest = b.PullRequest) → p.PullRequest = p'.PullRequest) := by
  have hf : (eventsFor t r cs).Perm (eventsFor t r cs') := List.Perm.filter _ hperm
  rw [find_aggregate, find_aggregate]
  constructor
  · have hlen := hf.length_eq
    cases h1 : eventsFor t r cs with
    | nil =>
      cases h2 : eventsFor t r cs' with
      | nil => rfl
      | cons b l' => simp [h1, h2] at hlen
    | cons a l =>
      cases h2 : eventsFor t r cs' with
      | nil => simp [h1, h2] at hlen
      | cons b l' => simp [recordOf]
  · intro p p' hp hp'
    obtain ⟨a, l, hl, hpr, hc⟩ := recordOf_eq_some _ _ hp
    obtain ⟨b, l', hl', hpr', hc'⟩ := recordOf_eq_some _ _ hp'
    constructor
    · rw [hc, hc']
      exact hf.map _
    · intro hsnap
      have ha : a ∈ eventsFor t r cs := by rw [hl]; exact List.mem_cons_self _ _
      have hb : b ∈ eventsFor t r cs := by
        apply hf.symm.subset
        rw [hl']
        exact List.mem_cons_self _ _
      have hak := List.mem_filter.1 ha
      have hbk := List.mem_filter.1 hb
      simp only [decide_eq_true_eq] at hak hbk
      rw [hpr, hpr']
      exact hsnap a hak.1 b hbk.1 (hak.2.1.trans hbk.2.1.symm) (hak.2.2.trans hbk.2.2.symm)

/-! ## Facts about the workers -/

theorem sent_append (a b : List Effect) : sent (a ++ b) = sent a ++ sent b := by
  induction a with
  | nil => rfl
  | cons e a ih => cases e <;> simp [sent, ih]

theorem spawned_append (a b : List Effect) : spawned (a ++ b) = spawned a ++ spawned b := by
  induction a with
  | nil => rfl
  | cons e a ih => cases e <;> simp [spawned, ih]

theorem sent_flatMap {α : Type} (f : α → List Effect) (l : List α) :
    sent (l.flatMap f) = l.flatMap fun a => sent (f a) := by
  induction l with
  | nil => rfl
  | cons a l ih => simp [List.flatMap_cons, sent_append, ih]

theorem spawned_flatMap {α : Type} (f : α → List Effect) (l : List α) :
    spawned (l.flatMap f) = l.flatMap fun a => spawned (f a) := by
  induction l with
  | nil => rfl
  | cons a l ih => simp [List.flatMap_cons, spawned_append, ih]

theorem sent_map_send {α : Type} (f : α → Comment) (l : List α) :
    sent (l.map fun a => Effect.send (f a)) = l.map f := by
  induction l with
  | nil => rfl
  | cons a l ih => simp [sent, ih]

/-- What `getComments` sends: one event for every comment of the slice that
`GetComments` returns, whatever the error returned with it. -/
theorem sent_getComments (c : Stash.Stash) (r : Stash.Repository) (pr : Stash.PullRequest)
    (path : String) :
    sent (getComments c r pr path) =
      (c.GetComments r.ProjectKey r.Slug (Itoa pr.ID) path).1.map fun comment =>
        { TaskID := pr.FromRefDisplayID, Repository := r.Slug, PullRequest := pr,
          Comment := comment } := by
  simp only [getComments, sent_append]
  have h1 : sent [Effect.listComments r.ProjectKey r.Slug (Itoa pr.ID) path] = [] := rfl
  have h2 : sent [Effect.done] = [] := rfl
  have h3 : sent (match (c.GetComments r.ProjectKey r.Slug (Itoa pr.ID) path).2 with
      | some err => [Effect.log err]
      | none => []) = [] := by
    cases (c.GetComments r.ProjectKey r.Slug (Itoa pr.ID) path).2 <;> rfl
  rw [h1, h2, h3, sent_map_send]
  simp

/-- What one round of the loop of `discoverComments` sends. -/
theorem sent_discoverPR (c : Stash.Stash) (user : String) (r : Stash.Repository)
    (pr : Stash.PullRequest) :
    sent (discoverPR c user r pr) =
      if pr.AuthorUserSlug = user then
        [{ TaskID := pr.FromRefDisplayID, Repository := r.Slug, PullRequest := pr,
           Comment := sentinel }]
      else [] := by
  by_cases h : pr.AuthorUserSlug = user
  · simp only [discoverPR, h, ne_eq, not_true_eq_false, if_false, if_true, sent_append]
    have h3 : sent (match c.GetPullRequestChanges r.ProjectKey r.Slug pr.ID with
        | (_, some err) => [Effect.log err]
        | (files, none) => files.flatMap fun f => [Effect.add, Effect.goGetComments r pr f])
        = [] := by
      rcases c.GetPullRequestChanges r.ProjectKey r.Slug pr.ID with ⟨files, _ | err⟩
      · simp only [sent_flatMap]
        simp [sent]
      · rfl
    rw [h3]
    rfl
  · simp [discoverPR, h, sent]

/-- The workers that one round of the loop of `discoverComments` starts are
for the repository and the pull request of the round, which the user wrote. -/
theorem mem_spawned_discoverPR (c : Stash.Stash) (user : String) (r : Stash.Repository)
    (pr : Stash.PullRequest) (w : Stash.Repository × Stash.PullRequest × String)
    (h : w ∈ spawned (discoverPR c user r pr)) :
    w.1 = r ∧ w.2.1 = pr ∧ pr.AuthorUserSlug = user := by
  by_cases hu : pr.AuthorUserSlug = user
  · simp only [discoverPR, hu, ne_eq, not_true_eq_false, if_false, spawned_append] at h
    rcases hc : c.GetPullRequestChanges r.ProjectKey r.Slug pr.ID with ⟨files, _ | err⟩
    · simp only [hc, spawned_flatMap] at h
      simp only [spawned, List.append_nil, List.nil_append, List.mem_flatMap,
        List.mem_singleton] at h
      obtain ⟨f, _, rfl⟩ := h
      exact ⟨rfl, rfl, hu⟩
    · simp [hc, spawned] at h
  · simp [discoverPR, hu, spawned] at h

theorem discoverComments_of_ok (c : Stash.Stash) (user : String) (r : Stash.Repository)
    (prs : List Stash.PullRequest)
    (h : c.GetPullRequests r.ProjectKey r.Slug "OPEN" = (prs, none)) :
    discoverComments c user r =
      [Effect.listPullRequests r.ProjectKey r.Slug "OPEN"] ++
        prs.flatMap (discoverPR c user r) ++ [Effect.done] := by
  simp only [discoverComments, h]

theorem discoverComments_of_error (c : Stash.Stash) (user : String) (r : Stash.Repository)
    (err : String) (h : (c.GetPullRequests r.ProjectKey r.Slug "OPEN").2 = some err) :
    discoverComments c user r =
      [Effect.listPullRequests r.ProjectKey r.Slug "OPEN", Effect.log err, Effect.done] := by
  rcases hc : c.GetPullRequests r.ProjectKey r.Slug "OPEN" with ⟨prs, e⟩
  rw [hc] at h
  simp only at h
  subst h
  simp only [discoverComments, hc]
  rfl

theorem discoverPR_filter (c : Stash.Stash) (user : String) (r : Stash.Repository)
    (prs : List Stash.PullRequest) :
    (prs.filter fun pr => decide (pr.AuthorUserSlug = user)).flatMap (discoverPR c user r) =
      prs.flatMap (discoverPR c user r) := by
  induction prs with
  | nil => rfl
  | cons pr prs ih =>
    by_cases h : pr.AuthorUserSlug = user
    · simp [List.filter, h, List.flatMap_cons, ih]
    · have h0 : discoverPR c user r pr = [] := by simp [discoverPR, h]
      simp [List.filter, h, List.flatMap_cons, ih, h0]

theorem sent_flatMap_discoverPR (c : Stash.Stash) (user : String) (r : Stash.Repository)
    (prs : List Stash.PullRequest) :
    sent (prs.flatMap (discoverPR c user r)) =
      (prs.filter fun pr => decide (pr.AuthorUserSlug = user)).map fun pr =>
        { TaskID := pr.FromRefDisplayID, Repository := r.Slug, PullRequest := pr,
          Comment := sentinel } := by
  induction prs with
  | nil => rfl
  | cons pr prs ih =>
    rw [List.flatMap_cons, sent_append, ih, sent_discoverPR]
    by_cases h : pr.AuthorUserSlug = user
    · simp [List.filter, h]
    · simp [List.filter, h]

/-- Every event of a repository comes from a pull request that the listing of
the repository returned without error and that the user wrote. -/
theorem mem_repositoryEvents (c : Stash.Stash) (user : String) (r : Stash.Repository)
    (e : Comment) (h : e ∈ repositoryEvents c user r) :
    (c.GetPullRequests r.ProjectKey r.Slug "OPEN").2 = none ∧
    ∃ pr ∈ (c.GetPullRequests r.ProjectKey r.Slug "OPEN").1,
      pr.AuthorUserSlug = user ∧ e.TaskID = pr.FromRefDisplayID ∧ e.Repository = r.Slug ∧
        e.PullRequest = pr := by
  rcases hc : c.GetPullRequests r.ProjectKey r.Slug "OPEN" with ⟨prs, _ | err⟩
  · refine ⟨rfl, ?_⟩
    have hd := discoverComments_of_ok c user r prs hc
    simp only [repositoryEvents, hd, sent_append, spawned_append, List.mem_append,
      List.mem_flatMap] at h
    rcases h with h | ⟨w, hw, he⟩
    · have h1 : sent [Effect.listPullRequests r.ProjectKey r.Slug "OPEN"] = [] := rfl
      have h2 : sent [Effect.done] = [] := rfl
      rw [h1, h2, sent_flatMap_discoverPR] at h
      simp only [List.nil_append, List.append_nil, List.mem_map, List.mem_filter,
        decide_eq_true_eq, List.not_mem_nil, or_false, false_or] at h
      obtain ⟨pr, ⟨hpr, hu⟩, rfl⟩ := h
      exact ⟨pr, hpr, hu, rfl, rfl, rfl⟩
    · have h1 : spawned [Effect.listPullRequests r.ProjectKey r.Slug "OPEN"] = [] := rfl
      have h2 : spawned [Effect.done] = [] := rfl
      rw [h1, h2, spawned_flatMap] at hw
      simp only [List.nil_append, List.append_nil, List.mem_flatMap, List.not_mem_nil,
        or_false, false_or] at hw
      obtain ⟨pr, hpr, hw⟩ := hw
      obtain ⟨hw1, hw2, hu⟩ := mem_spawned_discoverPR c user r pr w hw
      rw [sent_getComments, List.mem_map] at he
      obtain ⟨comment, _, rfl⟩ := he
      exact ⟨pr, hpr, hu, by simp [hw2], by simp [hw1], by simp [hw2]⟩
  · have hd := discoverComments_of_error c user r err (by rw [hc])
    rw [repositoryEvents, hd] at h
    simp [sent, spawned] at h

/-- A repository whose listing fails has no event. -/
theorem repositoryEvents_of_error (c : Stash.Stash) (user : String) (r : Stash.Repository)
    (err : String) (h : (c.GetPullRequests r.ProjectKey r.Slug "OPEN").2 = some err) :
    repositoryEvents c user r = [] := by
  rw [repositoryEvents, discoverComments_of_error c user r err h]
  simp [sent, spawned]

/-! ## Facts about the goroutines -/

theorem workerCode_append_plain (l rest : List Effect) (hl : ∀ e ∈ l, e.isPlain = true)
    (h : WorkerCode rest) : WorkerCode (l ++ rest) := by
  induction l with
  | nil => exact h
  | cons e l ih =>
    exact WorkerCode.plain e _ (hl e (List.mem_cons_self _ _))
      (ih fun x hx => hl x (List.mem_cons_of_mem _ hx))

theorem workerCode_append_starts (r : Stash.Repository) (pr : Stash.PullRequest)
    (files : List String) (rest : List Effect) (h : WorkerCode rest) :
    WorkerCode ((files.flatMap fun f => [Effect.add, Effect.goGetComments r pr f]) ++ rest) := by
  induction files with
  | nil => exact h
  | cons f files ih => exact WorkerCode.start r pr f _ ih

theorem workerCode_append_discoverPR (c : Stash.Stash) (user : String) (r : Stash.Repository)
    (pr : Stash.PullRequest) (rest : List Effect) (h : WorkerCode rest) :
    WorkerCode (discoverPR c user r pr ++ rest) := by
  by_cases hu : pr.AuthorUserSlug = user
  · simp only [discoverPR, hu, ne_eq, not_true_eq_false, if_false, List.append_assoc]
    apply workerCode_append_plain _ _ (by simp [Effect.isPlain])
    rcases c.GetPullRequestChanges r.ProjectKey r.Slug pr.ID with ⟨files, _ | err⟩
    · exact workerCode_append_starts r pr files rest h
    · exact WorkerCode.plain _ _ rfl h
  · simpa [discoverPR, hu] using h

theorem workerCode_discoverComments (c : Stash.Stash) (user : String) (r : Stash.Repository) :
    WorkerCode (discoverComments c user r) := by
  simp only [discoverComments, List.append_assoc]
  apply workerCode_append_plain _ _ (by simp [Effect.isPlain])
  rcases c.GetPullRequests r.ProjectKey r.Slug "OPEN" with ⟨prs, _ | err⟩
  · show WorkerCode (prs.flatMap (discoverPR c user r) ++ [Effect.done])
    induction prs with
    | nil => exact WorkerCode.done
    | cons pr prs ih =>
      rw [List.flatMap_cons, List.append_assoc]
      exact workerCode_append_discoverPR c user r pr _ ih
  · exact WorkerCode.plain _ _ rfl WorkerCode.done

theorem workerCode_getComments (c : Stash.Stash) (r : Stash.Repository)
    (pr : Stash.PullRequest) (path : String) : WorkerCode (getComments c r pr path) := by
  simp only [getComments, List.append_assoc]
  apply workerCode_append_plain _ _ (by simp [Effect.isPlain])
  apply workerCode_append_plain
  · intro e he
    cases h : (c.GetComments r.ProjectKey r.Slug (Itoa pr.ID) path).2 with
    | none => simp [h] at he
    | some err =>
      simp only [h, List.mem_singleton] at he
      subst he
      rfl
  · apply workerCode_append_plain _ _ _ WorkerCode.done
    intro e he
    obtain ⟨x, _, rfl⟩ := List.mem_map.1 he
    rfl

theorem orchestratorCode_orchestrate (repos : List Stash.Repository) :
    OrchestratorCode (orchestrate repos) := by
  induction repos with
  | nil => exact OrchestratorCode.wait
  | cons r repos ih => exact OrchestratorCode.start r _ ih

theorem workerCode_ne_nil (w : List Effect) (h : WorkerCode w) : w ≠ [] := by
  cases h <;> simp

theorem workerCode_aboutToStart (w : List Effect) (h : WorkerCode w) : aboutToStart w = false := by
  cases h with
  | done => rfl
  | plain e rest he _ => cases e <;> simp_all [Effect.isPlain, Mypr.aboutToStart]
  | start => rfl

theorem orchestratorCode_aboutToStart (o : List Effect) (h : OrchestratorCode o) :
    aboutToStart o = false := by
  cases h <;> rfl

theorem orchestratorCode_ne_nil (o : List Effect) (h : OrchestratorCode o) : o ≠ [] := by
  cases h <;> simp

theorem invariant_init (repos : List Stash.Repository) : Invariant (System.init repos) := by
  have h := orchestratorCode_orchestrate repos
  refine ⟨rfl, ?_, by simp [System.init], Or.inr (Or.inr (Or.inl h)), ?_, by simp [System.init]⟩
  · simp [System.init, registered, orchestratorCode_aboutToStart _ h]
  · have hne := orchestratorCode_ne_nil _ h
    simp [System.init, hne]

theorem sum_map_set {α : Type} (f : α → Nat) (l : List α) (i : Nat) (x a : α)
    (h : l[i]? = some a) : ((l.set i x).map f).sum + f a = (l.map f).sum + f x := by
  induction l generalizing i with
  | nil => simp at h
  | cons b l ih =>
    cases i with
    | zero =>
      simp only [List.getElem?_cons_zero, Option.some.injEq] at h
      subst h
      simp only [List.set_cons_zero, List.map_cons, List.sum_cons]
      omega
    | succ i =>
      simp only [List.getElem?_cons_succ] at h
      have := ih i h
      simp only [List.set_cons_succ, List.map_cons, List.sum_cons]
      omega

theorem le_sum_map {α : Type} (f : α → Nat) (l : List α) (a : α) (h : a ∈ l) :
    f a ≤ (l.map f).sum := by
  induction l with
  | nil => simp at h
  | cons b l ih =>
    rcases List.mem_cons.1 h with h | h
    · subst h
      simp
    · have := ih h
      simp only [List.map_cons, List.sum_cons]
      omega

theorem sum_map_eq_zero {α : Type} (f : α → Nat) (l : List α) (h : (l.map f).sum = 0)
    (a : α) (ha : a ∈ l) : f a = 0 := by
  have := le_sum_map f l a ha
  omega

theorem weight_eq_zero (w : List Effect) (h : weight w = 0) : w = [] := by
  cases w with
  | nil => rfl
  | cons e rest => simp [weight, running] at h

theorem weight_of_workerCode (w : List Effect) (h : WorkerCode w) : weight w = 1 := by
  have h1 := workerCode_aboutToStart w h
  have h2 := workerCode_ne_nil w h
  cases w with
  | nil => exact absurd rfl h2
  | cons e rest => simp [weight, running, h1]

theorem invariant_step_orchestrator (c : Stash.Stash) (user : String) (s s' : System)
    (h : step c user s 0 = some s') (inv : Invariant s) : Invariant s' := by
  simp only [step] at h
  rcases ho : s.orchestrator with _ | ⟨e, rest⟩
  · simp [ho] at h
  · rw [ho] at h
    have horch := inv.orchestrator
    have hcount := inv.count
    have hcl := inv.closes
    simp only [registered] at hcount
    rw [ho] at horch hcount hcl
    rcases horch with h0 | h1 | h2 | ⟨r, rest', h3, h4⟩
    · cases h0
    · cases h1
      simp only [List.isEmpty_cons, Bool.false_eq_true, if_false] at hcl
      simp only [exec, hcl, if_true, Option.some.injEq] at h
      subst h
      have hfin := inv.finished (Or.inr ho)
      exact ⟨inv.fault, by simpa [registered, aboutToStart] using hcount, inv.workers,
        Or.inl rfl, by simp, fun _ => hfin⟩
    · cases h2 with
      | wait =>
        simp only [exec] at h
        split at h
        · rename_i hwg
          simp only [Option.some.injEq] at h
          subst h
          refine ⟨inv.fault, by simpa [registered, aboutToStart] using hcount, inv.workers,
            Or.inr (Or.inl rfl), by simpa using hcl, ?_⟩
          intro _ w hw
          simp only [aboutToStart] at hcount
          apply weight_eq_zero
          apply sum_map_eq_zero weight s.workers _ w hw
          simp only at hw
          omega
        · simp at h
      | start r rest' hrest =>
        simp only [exec, Option.some.injEq] at h
        subst h
        refine ⟨inv.fault, ?_, inv.workers, Or.inr (Or.inr (Or.inr ⟨r, rest', rfl, hrest⟩)),
          by simpa using hcl, ?_⟩
        · simp only [registered, aboutToStart] at hcount ⊢
          simp only [Bool.false_eq_true, if_false] at hcount
          simp only [if_true]
          omega
        · intro h
          simp at h
    · cases h3
      simp only [exec, Option.some.injEq] at h
      subst h
      refine ⟨inv.fault, ?_, ?_, Or.inr (Or.inr (Or.inl h4)), ?_, ?_⟩
      · have h5 := orchestratorCode_aboutToStart _ h4
        have h6 := weight_of_workerCode _ (workerCode_discoverComments c user r)
        have h0 : aboutToStart (Effect.goDiscoverComments r :: rest) = true := rfl
        simp only [h0, if_true] at hcount
        simp only [registered, h5, List.map_append, List.sum_append, List.map_cons,
          List.map_nil, List.sum_cons, List.sum_nil, h6]
        simp only [Bool.false_eq_true, if_false]
        omega
      · intro w hw
        simp only [List.mem_append, List.mem_singleton] at hw
        rcases hw with hw | hw
        · exact inv.workers w hw
        · subst hw
          exact Or.inr (Or.inl (workerCode_discoverComments c user r))
      · have h7 := orchestratorCode_ne_nil _ h4
        simp only [List.isEmpty_cons] at hcl
        simpa [h7] using hcl
      · intro h
        exfalso
        rcases h with h | h
        · exact orchestratorCode_ne_nil _ h4 h
        · simp only at h
          rw [h] at h4
          cases h4

theorem invariant_update (s : System) (inv : Invariant s) (ws : List (List Effect)) (wg : Nat)
    (received : List Comment)
    (hnf : ¬ (s.orchestrator = [] ∨ s.orchestrator = [Effect.close]))
    (hws : ∀ w ∈ ws, WorkerState w)
    (hwg : wg = (if aboutToStart s.orchestrator then 1 else 0) + (ws.map weight).sum) :
    Invariant { s with workers := ws, wg := wg, received := received } :=
  ⟨inv.fault, hwg, hws, inv.orchestrator, inv.closes, fun h => absurd h hnf⟩

theorem workerState_set (ws : List (List Effect)) (i : Nat) (rest : List Effect)
    (h : ∀ w ∈ ws, WorkerState w) (hrest : WorkerState rest) :
    ∀ w ∈ ws.set i rest, WorkerState w := by
  intro w hw
  rcases List.mem_or_eq_of_mem_set hw with hw | hw
  · exact h w hw
  · rw [hw]
    exact hrest

theorem invariant_step_worker (c : Stash.Stash) (user : String) (s s' : System) (i : Nat)
    (h : step c user s (i + 1) = some s') (inv : Invariant s) : Invariant s' := by
  simp only [step] at h
  rcases hw : s.workers[i]? with _ | _ | ⟨e, rest⟩
  · simp [hw] at h
  · simp [hw] at h
  · rw [hw] at h
    simp only at h
    have hmem : (e :: rest) ∈ s.workers := List.getElem?_mem hw
    have hstate := inv.workers _ hmem
    have hnf : ¬ (s.orchestrator = [] ∨ s.orchestrator = [Effect.close]) := by
      intro hfin
      have := inv.finished hfin _ hmem
      cases this
    have hcl : s.closes = 0 := by
      have := inv.closes
      cases ho : s.orchestrator with
      | nil => exact absurd (Or.inl ho) hnf
      | cons a l => simpa [ho] using this
    have hsum := sum_map_set weight s.workers i rest (e :: rest) hw
    have hcount := inv.count
    simp only [registered] at hcount
    rcases hstate with h0 | h1 | ⟨r, pr, f, rest', h3, h4⟩
    · cases h0
    · have hw1 := weight_of_workerCode _ h1
      cases h1 with
      | done =>
        have h0 : weight ([] : List Effect) = 0 := rfl
        rw [h0] at hsum
        have hwg : s.wg ≠ 0 := by omega
        simp only [exec, hwg, if_false, Option.some.injEq] at h
        subst h
        apply invariant_update s inv _ _ _ hnf
        · exact workerState_set _ _ _ inv.workers (Or.inl rfl)
        · omega
      | plain _ _ hp hrest =>
        have hw2 := weight_of_workerCode _ hrest
        have hws := workerState_set _ i _ inv.workers (Or.inr (Or.inl hrest))
        cases e <;> simp only [Effect.isPlain, Bool.false_eq_true] at hp <;>
          simp only [exec, if_pos hcl, Option.some.injEq] at h <;> subst h <;>
          apply invariant_update s inv _ _ _ hnf hws <;> omega
      | start r pr f rest' hrest =>
        simp only [exec, Option.some.injEq] at h
        subst h
        apply invariant_update s inv _ _ _ hnf
        · exact workerState_set _ _ _ inv.workers (Or.inr (Or.inr ⟨r, pr, f, rest', rfl, hrest⟩))
        · have hw2 := weight_of_workerCode _ hrest
          have : weight (Effect.goGetComments r pr f :: rest') = 2 := by
            simp [weight, running, aboutToStart]
          omega
    · cases h3
      simp only [exec, Option.some.injEq] at h
      subst h
      apply invariant_update s inv _ _ _ hnf
      · intro w hw'
        rcases List.mem_append.1 hw' with hw' | hw'
        · exact workerState_set _ _ _ inv.workers (Or.inr (Or.inl h4)) w hw'
        · rw [List.mem_singleton.1 hw']
          exact Or.inr (Or.inl (workerCode_getComments c r pr f))
      · have hw2 := weight_of_workerCode _ h4
        have hw3 := weight_of_workerCode _ (workerCode_getComments c r pr f)
        have : weight (Effect.goGetComments r pr f :: rest) = 2 := by
          simp [weight, running, aboutToStart]
        simp only [List.map_append, List.sum_append, List.map_cons, List.map_nil, List.sum_cons,
          List.sum_nil, hw3]
        omega

theorem invariant_step (c : Stash.Stash) (user : String) (s s' : System) (i : Nat)
    (h : step c user s i = some s') (inv : Invariant s) : Invariant s' := by
  cases i with
  | zero => exact invariant_step_orchestrator c user s s' h inv
  | succ i => exact invariant_step_worker c user s s' i h inv

theorem invariant_runSchedule (c : Stash.Stash) (user : String) (schedule : List Nat)
    (s s' : System) (h : runSchedule c user s schedule = some s') (inv : Invariant s) :
    Invariant s' := by
  induction schedule generalizing s with
  | nil =>
    simp only [runSchedule, Option.some.injEq] at h
    exact h ▸ inv
  | cons i rest ih =>
    simp only [runSchedule] at h
    cases hs : step c user s i with
    | none => simp [hs] at h
    | some s1 =>
      rw [hs] at h
      exact ih s1 h (invariant_step c user s s1 i hs inv)

theorem invariant_of_reachable (c : Stash.Stash) (user : String)
    (repos : List Stash.Repository) (s : System) (h : Reachable c user repos s) :
    Invariant s := by
  obtain ⟨schedule, hs⟩ := h
  exact invariant_runSchedule c user schedule _ s hs (invariant_init repos)

theorem exec_eq_none (c : Stash.Stash) (user : String) (s : System) (e : Effect)
    (h : exec c user s e = none) : e = Effect.wait ∧ s.wg ≠ 0 := by
  cases e with
  | wait =>
    simp only [exec] at h
    split at h
    · simp at h
    · rename_i hwg
      exact ⟨rfl, hwg⟩
  | _ => simp [exec] at h

theorem sum_map_weight_eq_zero (ws : List (List Effect)) (h : ∀ w ∈ ws, w = []) :
    (ws.map weight).sum = 0 := by
  induction ws with
  | nil => rfl
  | cons w ws ih =>
    have hw := h w (List.mem_cons_self _ _)
    subst hw
    simp only [List.map_cons, List.sum_cons, ih fun x hx => h x (List.mem_cons_of_mem _ hx)]
    rfl

/-- A state in which no goroutine can step is a state after the close, with
every worker returned. -/
theorem finished_of_stuck (c : Stash.Stash) (user : String) (s : System) (inv : Invariant s)
    (hstuck : ∀ i, step c user s i = none) :
    s.orchestrator = [] ∧ ∀ w ∈ s.workers, w = [] := by
  have hws : ∀ w ∈ s.workers, w = [] := by
    intro w hw
    obtain ⟨i, hi⟩ := List.getElem?_of_mem hw
    have hs := hstuck (i + 1)
    simp only [step, hi] at hs
    cases w with
    | nil => rfl
    | cons e rest =>
      simp only at hs
      have he := (exec_eq_none c user _ e hs).1
      subst he
      rcases inv.workers _ hw with h0 | h1 | ⟨r, pr, f, rest', h3, _⟩
      · cases h0
      · cases h1 with
        | plain _ _ hp _ => simp [Effect.isPlain] at hp
      · cases h3
  refine ⟨?_, hws⟩
  have hs := hstuck 0
  simp only [step] at hs
  cases ho : s.orchestrator with
  | nil => rfl
  | cons e rest =>
    rw [ho] at hs
    simp only at hs
    obtain ⟨he, hwg⟩ := exec_eq_none c user _ e hs
    subst he
    have hcount := inv.count
    simp only [registered, ho, sum_map_weight_eq_zero _ hws] at hcount
    simp only at hwg
    exact absurd hcount hwg

theorem stepsOf_workerCode (c : Stash.Stash) (user : String) (w : List Effect)
    (h : WorkerCode w) : (w.map (stepsOf c user)).sum = (w.map (workerSteps c)).sum := by
  induction h with
  | done => rfl
  | plain e rest he _ ih =>
    simp only [List.map_cons, List.sum_cons, ih]
    cases e <;> simp [Effect.isPlain] at he <;> rfl
  | start r pr f rest _ ih =>
    simp only [List.map_cons, List.sum_cons, ih]
    rfl

theorem stepsOf_getComments (c : Stash.Stash) (user : String) (r : Stash.Repository)
    (pr : Stash.PullRequest) (path : String) :
    ((getComments c r pr path).map (stepsOf c user)).sum = (getComments c r pr path).length := by
  have h : ∀ e ∈ getComments c r pr path, stepsOf c user e = 1 := by
    intro e he
    simp only [getComments, List.mem_append, List.mem_singleton, List.mem_map] at he
    rcases he with ((he | he) | ⟨x, _, he⟩) | he
    · subst he; rfl
    · cases hc : (c.GetComments r.ProjectKey r.Slug (Itoa pr.ID) path).2 with
      | none => simp [hc] at he
      | some err =>
        simp only [hc, List.mem_singleton] at he
        subst he; rfl
    · subst he; rfl
    · subst he; rfl
  generalize getComments c r pr path = l at h
  induction l with
  | nil => rfl
  | cons e l ih =>
    simp only [List.map_cons, List.sum_cons, List.length_cons,
      h e (List.mem_cons_self _ _), ih fun x hx => h x (List.mem_cons_of_mem _ hx)]
    omega

theorem stepsLeft_exec (c : Stash.Stash) (user : String) (s s' : System) (e : Effect)
    (h : exec c user s e = some s') :
    stepsLeft c user s' + 1 = stepsLeft c user s + stepsOf c user e := by
  cases e with
  | goDiscoverComments r =>
    simp only [exec, Option.some.injEq] at h
    subst h
    simp only [stepsLeft, List.map_append, List.sum_append, List.map_cons, List.map_nil,
      List.sum_cons, List.sum_nil, stepsOf,
      stepsOf_workerCode c user _ (workerCode_discoverComments c user r)]
    omega
  | goGetComments r pr f =>
    simp only [exec, Option.some.injEq] at h
    subst h
    simp only [stepsLeft, List.map_append, List.sum_append, List.map_cons, List.map_nil,
      List.sum_cons, List.sum_nil, stepsOf, workerSteps, stepsOf_getComments]
    omega
  | wait =>
    simp only [exec] at h
    split at h
    · simp only [Option.some.injEq] at h
      subst h
      rfl
    · simp at h
  | send ev =>
    simp only [exec, Option.some.injEq] at h
    subst h
    split <;> rfl
  | done =>
    simp only [exec, Option.some.injEq] at h
    subst h
    split <;> rfl
  | close =>
    simp only [exec, Option.some.injEq] at h
    subst h
    split <;> rfl
  | _ =>
    simp only [exec, Option.some.injEq] at h
    subst h
    rfl

/-- Every step takes one from the steps left. -/
theorem stepsLeft_step (c : Stash.Stash) (user : String) (s s' : System) (i : Nat)
    (h : step c user s i = some s') : stepsLeft c user s' + 1 = stepsLeft c user s := by
  cases i with
  | zero =>
    simp only [step] at h
    cases ho : s.orchestrator with
    | nil => simp [ho] at h
    | cons e rest =>
      rw [ho] at h
      have := stepsLeft_exec c user _ s' e h
      simp only [stepsLeft, ho, List.map_cons, List.sum_cons] at this ⊢
      omega
  | succ i =>
    simp only [step] at h
    rcases hw : s.workers[i]? with _ | _ | ⟨e, rest⟩
    · simp [hw] at h
    · simp [hw] at h
    · rw [hw] at h
      have := stepsLeft_exec c user _ s' e h
      have hsum := sum_map_set (fun w : List Effect => (w.map (stepsOf c user)).sum)
        s.workers i rest (e :: rest) hw
      simp only [stepsLeft, List.map_cons, List.sum_cons] at this hsum ⊢
      omega

theorem stepsLeft_runSchedule (c : Stash.Stash) (user : String) (schedule : List Nat)
    (s s' : System) (h : runSchedule c user s schedule = some s') :
    schedule.length + stepsLeft c user s' = stepsLeft c user s := by
  induction schedule generalizing s with
  | nil =>
    simp only [runSchedule, Option.some.injEq] at h
    subst h
    simp
  | cons i rest ih =>
    simp only [runSchedule] at h
    cases hs : step c user s i with
    | none => simp [hs] at h
    | some s1 =>
      rw [hs] at h
      have h1 := ih s1 h
      have h2 := stepsLeft_step c user s s1 i hs
      simp only [List.length_cons]
      omega

theorem mem_getComments (c : Stash.Stash) (r : Stash.Repository) (pr : Stash.PullRequest)
    (path : String) (e : Effect) (he : e ∈ getComments c r pr path) :
    e.isPlain = true ∨ e = Effect.done := by
  simp only [getComments, List.mem_append, List.mem_singleton, List.mem_map] at he
  rcases he with ((he | he) | ⟨x, _, he⟩) | he
  · subst he; exact Or.inl rfl
  · cases hc : (c.GetComments r.ProjectKey r.Slug (Itoa pr.ID) path).2 with
    | none => simp [hc] at he
    | some err =>
      simp only [hc, List.mem_singleton] at he
      subst he; exact Or.inl rfl
  · subst he; exact Or.inl rfl
  · exact Or.inr he

theorem pending_getComments (c : Stash.Stash) (user : String) (r : Stash.Repository)
    (pr : Stash.PullRequest) (path : String) :
    (getComments c r pr path).flatMap (pendingOf c user) = sent (getComments c r pr path) := by
  have h := mem_getComments c r pr path
  generalize getComments c r pr path = l at h
  induction l with
  | nil => rfl
  | cons e l ih =>
    have ih' := ih fun x hx => h x (List.mem_cons_of_mem _ hx)
    rcases h e (List.mem_cons_self _ _) with he | he
    · cases e <;> simp [Effect.isPlain] at he <;>
        simp [List.flatMap_cons, pendingOf, sent, ih']
    · subst he
      simp [List.flatMap_cons, pendingOf, sent, ih']

theorem pending_workerCode (c : Stash.Stash) (user : String) (w : List Effect)
    (h : WorkerCode w) :
    (w.flatMap (pendingOf c user)).Perm
      (sent w ++ (spawned w).flatMap fun x => sent (getComments c x.1 x.2.1 x.2.2)) := by
  induction h with
  | done => simp [List.flatMap_cons, pendingOf, sent, spawned]
  | plain e rest he _ ih =>
    cases e <;> simp [Effect.isPlain] at he <;>
      simpa [List.flatMap_cons, pendingOf, sent, spawned] using ih
  | start r pr f rest _ ih =>
    simp only [List.flatMap_cons, pendingOf, sent, spawned, List.nil_append]
    exact (List.Perm.append_left _ ih).trans (List.perm_append_comm_assoc _ _ _)

theorem pending_discoverComments (c : Stash.Stash) (user : String) (r : Stash.Repository) :
    ((discoverComments c user r).flatMap (pendingOf c user)).Perm (repositoryEvents c user r) :=
  pending_workerCode c user _ (workerCode_discoverComments c user r)

theorem pending_orchestrate (c : Stash.Stash) (user : String) (repos : List Stash.Repository) :
    (orchestrate repos).flatMap (pendingOf c user) = allEvents c user repos := by
  induction repos with
  | nil => rfl
  | cons r repos ih =>
    simp only [orchestrate, allEvents, List.flatMap_cons, List.cons_append, List.nil_append,
      pendingOf] at ih ⊢
    rw [ih]

theorem pending_init (c : Stash.Stash) (user : String) (repos : List Stash.Repository) :
    pending c user (System.init repos) = allEvents c user repos := by
  simp [pending, System.init, pending_orchestrate]

theorem flatMap_set_perm {α β : Type} (F : α → List β) (l : List α) (i : Nat) (a b : α)
    (front : List β) (h : l[i]? = some a) (hF : F a = front ++ F b) :
    (l.flatMap F).Perm (front ++ (l.set i b).flatMap F) := by
  induction l generalizing i with
  | nil => simp at h
  | cons x l ih =>
    cases i with
    | zero =>
      simp only [List.getElem?_cons_zero, Option.some.injEq] at h
      subst h
      simp [List.flatMap_cons, hF]
    | succ i =>
      simp only [List.getElem?_cons_succ] at h
      simp only [List.set_cons_succ, List.flatMap_cons]
      exact (List.Perm.append_left _ (ih i h)).trans (List.perm_append_comm_assoc _ _ _)

/-- What an action does to the events received and to those still to be
sent, as long as the channel is open. -/
theorem pending_exec (c : Stash.Stash) (user : String) (s s' : System) (e : Effect)
    (h : exec c user s e = some s') (hcl : s.closes = 0) :
    (s'.received ++ pending c user s').Perm
      (s.received ++ (pendingOf c user e ++ pending c user s)) := by
  cases e with
  | send ev =>
    simp only [exec, if_pos hcl, Option.some.injEq] at h
    subst h
    simp [pending, pendingOf]
  | goDiscoverComments r =>
    simp only [exec, Option.some.injEq] at h
    subst h
    simp only [pending, pendingOf, List.flatMap_append, List.flatMap_cons, List.flatMap_nil,
      List.append_nil]
    apply List.Perm.append_left
    rw [← List.append_assoc]
    exact (List.Perm.append_left _ (pending_discoverComments c user r)).trans
      List.perm_append_comm
  | goGetComments r pr f =>
    simp only [exec, Option.some.injEq] at h
    subst h
    simp only [pending, pendingOf, List.flatMap_append, List.flatMap_cons, List.flatMap_nil,
      List.append_nil, pending_getComments]
    apply List.Perm.append_left
    rw [← List.append_assoc]
    exact List.perm_append_comm
  | wait =>
    simp only [exec] at h
    split at h
    · simp only [Option.some.injEq] at h
      subst h
      simp [pendingOf]
    · simp at h
  | done =>
    simp only [exec, Option.some.injEq] at h
    subst h
    split <;> simp [pending, pendingOf]
  | close =>
    simp only [exec, Option.some.injEq] at h
    subst h
    split <;> simp [pending, pendingOf]
  | _ =>
    simp only [exec, Option.some.injEq] at h
    subst h
    simp [pending, pendingOf]

/-- A step moves events from those still to be sent to those received and
neither adds nor drops one. -/
theorem pending_step (c : Stash.Stash) (user : String) (s s' : System) (i : Nat)
    (h : step c user s i = some s') (inv : Invariant s) :
    (s'.received ++ pending c user s').Perm (s.received ++ pending c user s) := by
  cases i with
  | zero =>
    simp only [step] at h
    cases ho : s.orchestrator with
    | nil => simp [ho] at h
    | cons e rest =>
      rw [ho] at h
      have hcl : s.closes = 0 := by simpa [ho] using inv.closes
      have := pending_exec c user _ s' e h hcl
      simpa [pending, ho, List.flatMap_cons] using this
  | succ i =>
    simp only [step] at h
    rcases hw : s.workers[i]? with _ | _ | ⟨e, rest⟩
    · simp [hw] at h
    · simp [hw] at h
    · rw [hw] at h
      have hmem : (e :: rest) ∈ s.workers := List.getElem?_mem hw
      have hcl : s.closes = 0 := by
        have hc := inv.closes
        cases ho : s.orchestrator with
        | nil =>
          have := inv.finished (Or.inl ho) _ hmem
          cases this
        | cons a l => simpa [ho] using hc
      have h1 := pending_exec c user _ s' e h hcl
      have h2 := flatMap_set_perm (fun w : List Effect => w.flatMap (pendingOf c user))
        s.workers i (e :: rest) rest (pendingOf c user e) hw (by simp [List.flatMap_cons])
      refine h1.trans (List.Perm.append_left _ ?_)
      simp only [pending]
      exact (List.perm_append_comm_assoc _ _ _).trans (List.Perm.append_left _ h2.symm)

theorem pending_runSchedule (c : Stash.Stash) (user : String) (schedule : List Nat)
    (s s' : System) (h : runSchedule c user s schedule = some s') (inv : Invariant s) :
    (s'.received ++ pending c user s').Perm (s.received ++ pending c user s) := by
  induction schedule generalizing s with
  | nil =>
    simp only [runSchedule, Option.some.injEq] at h
    subst h
    exact List.Perm.refl _
  | cons i rest ih =>
    simp only [runSchedule] at h
    cases hs : step c user s i with
    | none => simp [hs] at h
    | some s1 =>
      rw [hs] at h
      exact (ih s1 h (invariant_step c user s s1 i hs inv)).trans (pending_step c user s s1 i hs inv)

/-- When a run has come to its end, what the loop of `main` has received is
what the workers of the run send, in some order. -/
theorem received_of_finished (c : Stash.Stash) (user : String)
    (repos : List Stash.Repository) (s : System) (h : Reachable c user repos s)
    (ho : s.orchestrator = []) (hws : ∀ w ∈ s.workers, w = []) :
    s.received.Perm (allEvents c user repos) := by
  obtain ⟨schedule, hs⟩ := h
  have hp := pending_runSchedule c user schedule _ s hs (invariant_init repos)
  have h0 : pending c user s = [] := by
    simp only [pending, ho, List.flatMap_nil, List.nil_append]
    generalize s.workers = ws at hws
    induction ws with
    | nil => rfl
    | cons w ws ih =>
      have hw := hws w (List.mem_cons_self _ _)
      subst hw
      simpa [List.flatMap_cons] using ih fun x hx => hws x (List.mem_cons_of_mem _ hx)
  rw [h0, pending_init] at hp
  simpa [System.init] using hp

theorem finished_of_closed (s : System) (inv : Invariant s) (h : s.closes = 1) :
    s.orchestrator = [] ∧ ∀ w ∈ s.workers, w = [] := by
  have hc := inv.closes
  cases ho : s.orchestrator with
  | nil => exact ⟨rfl, inv.finished (Or.inl ho)⟩
  | cons e rest =>
    simp [ho] at hc
    omega

/-- When the channel has been closed, what the loop of `main` has received is
what the workers of the run send, in some order. -/
theorem received_of_closed (c : Stash.Stash) (user : String) (repos : List Stash.Repository)
    (s : System) (h : Reachable c user repos s) (hc : s.closes = 1) :
    s.received.Perm (allEvents c user repos) := by
  obtain ⟨ho, hws⟩ := finished_of_closed s (invariant_of_reachable c user repos s h) hc
  exact received_of_finished c user repos s h ho hws

/-- Every run can be carried on to the close of the channel. -/
theorem exists_run_to_close (c : Stash.Stash) (user : String) (n : Nat) :
    ∀ s : System, Invariant s → stepsLeft c user s = n →
      ∃ more s', runSchedule c user s more = some s' ∧ s'.closes = 1 := by
  induction n with
  | zero =>
    intro s inv hn
    have hstuck : ∀ i, step c user s i = none := by
      intro i
      cases hs : step c user s i with
      | none => rfl
      | some s1 =>
        have := stepsLeft_step c user s s1 i hs
        omega
    have hfin := finished_of_stuck c user s inv hstuck
    have hc := inv.closes
    exact ⟨[], s, rfl, by simpa [hfin.1] using hc⟩
  | succ n ih =>
    intro s inv hn
    by_cases hstuck : ∀ i, step c user s i = none
    · have hfin := finished_of_stuck c user s inv hstuck
      have hc := inv.closes
      exact ⟨[], s, rfl, by simpa [hfin.1] using hc⟩
    · simp only [not_forall] at hstuck
      obtain ⟨i, hi⟩ := hstuck
      cases hs : step c user s i with
      | none => exact absurd hs hi
      | some s1 =>
        have h1 := stepsLeft_step c user s s1 i hs
        obtain ⟨more, s', hrun, hcl⟩ := ih s1 (invariant_step c user s s1 i hs inv) (by omega)
        exact ⟨i :: more, s', by simp [runSchedule, hs, hrun], hcl⟩

theorem workerCode_done_last (w : List Effect) (h : WorkerCode w) :
    ∃ body, w = body ++ [Effect.done] ∧ ∀ e ∈ body, e ≠ Effect.done := by
  induction h with
  | done => exact ⟨[], rfl, by simp⟩
  | plain e rest he _ ih =>
    obtain ⟨body, hb, hd⟩ := ih
    refine ⟨e :: body, by rw [hb]; rfl, ?_⟩
    intro x hx
    rcases List.mem_cons.1 hx with hx | hx
    · subst hx
      intro h0
      subst h0
      simp [Effect.isPlain] at he
    · exact hd x hx
  | start r pr f rest _ ih =>
    obtain ⟨body, hb, hd⟩ := ih
    refine ⟨Effect.add :: Effect.goGetComments r pr f :: body, by rw [hb]; rfl, ?_⟩
    intro x hx
    simp only [List.mem_cons] at hx
    rcases hx with hx | hx | hx
    · subst hx; simp
    · subst hx; simp
    · exact hd x hx

/-! ## A run without a repository whose listing fails -/

theorem getElem?_split {α : Type} (l : List α) (i : Nat) (a : α) (h : l[i]? = some a) :
    ∃ pre post, l = pre ++ a :: post ∧ pre.length = i ∧ ∀ x, l.set i x = pre ++ x :: post := by
  induction l generalizing i with
  | nil => simp at h
  | cons b l ih =>
    cases i with
    | zero =>
      simp only [List.getElem?_cons_zero, Option.some.injEq] at h
      subst h
      exact ⟨[], l, rfl, rfl, fun x => rfl⟩
    | succ i =>
      simp only [List.getElem?_cons_succ] at h
      obtain ⟨pre, post, hl, hlen, hset⟩ := ih i h
      refine ⟨b :: pre, post, by rw [hl]; rfl, by simp [hlen], ?_⟩
      intro x
      simp only [List.set_cons_succ, hset x]
      rfl

theorem getElem?_of_split {α : Type} (pre post : List α) (a : α) :
    (pre ++ a :: post)[pre.length]? = some a ∧
      ∀ x, (pre ++ a :: post).set pre.length x = pre ++ x :: post := by
  induction pre with
  | nil => exact ⟨by simp, fun x => rfl⟩
  | cons b pre ih =>
    refine ⟨by simpa using ih.1, ?_⟩
    intro x
    simp only [List.cons_append, List.length_cons, List.set_cons_succ, ih.2 x]

theorem split_of_step_worker (c : Stash.Stash) (user : String) (s s' : System) (i : Nat)
    (h : step c user s (i + 1) = some s') :
    ∃ pre e rest post, s.workers = pre ++ (e :: rest) :: post ∧ pre.length = i ∧
      exec c user { s with workers := pre ++ rest :: post } e = some s' := by
  simp only [step] at h
  rcases hw : s.workers[i]? with _ | _ | ⟨e, rest⟩
  · simp [hw] at h
  · simp [hw] at h
  · rw [hw] at h
    obtain ⟨pre, post, hl, hlen, hset⟩ := getElem?_split _ _ _ hw
    refine ⟨pre, e, rest, post, hl, hlen, ?_⟩
    simp only [hset rest] at h
    exact h

theorem step_worker_of_split (c : Stash.Stash) (user : String) (s s' : System)
    (pre post : List (List Effect)) (e : Effect) (rest : List Effect)
    (hw : s.workers = pre ++ (e :: rest) :: post)
    (h : exec c user { s with workers := pre ++ rest :: post } e = some s') :
    step c user s (pre.length + 1) = some s' := by
  have h1 := getElem?_of_split pre post (e :: rest)
  simp only [step, hw, h1.1, h1.2 rest]
  exact h

theorem split_cases {α : Type} (ws1 ws2 pre post : List α) (w a : α)
    (h : ws1 ++ w :: ws2 = pre ++ a :: post) :
    (∃ mid, ws1 = pre ++ a :: mid ∧ post = mid ++ w :: ws2) ∨
    (pre = ws1 ∧ a = w ∧ post = ws2) ∨
    (∃ mid, pre = ws1 ++ w :: mid ∧ ws2 = mid ++ a :: post) := by
  induction ws1 generalizing pre with
  | nil =>
    cases pre with
    | nil =>
      simp only [List.nil_append, List.cons.injEq] at h
      exact Or.inr (Or.inl ⟨rfl, h.1.symm, h.2.symm⟩)
    | cons p pre' =>
      simp only [List.nil_append, List.cons_append, List.cons.injEq] at h
      exact Or.inr (Or.inr ⟨pre', by rw [h.1]; rfl, h.2⟩)
  | cons x ws1' ih =>
    cases pre with
    | nil =>
      simp only [List.nil_append, List.cons_append, List.cons.injEq] at h
      exact Or.inl ⟨ws1', by rw [h.1]; rfl, h.2.symm⟩
    | cons p pre' =>
      simp only [List.cons_append, List.cons.injEq] at h
      rcases ih pre' h.2 with ⟨mid, h1, h2⟩ | ⟨h1, h2, h3⟩ | ⟨mid, h1, h2⟩
      · exact Or.inl ⟨mid, by rw [h.1, h1]; rfl, h2⟩
      · exact Or.inr (Or.inl ⟨by rw [h.1, h1], h2, h3⟩)
      · exact Or.inr (Or.inr ⟨mid, by rw [h.1, h1]; rfl, h2⟩)

/-- What an action does in two states that differ in the goroutines and by a
number in the counter. -/
theorem exec_sim (c : Stash.Stash) (user : String) (a b a' : System) (e : Effect) (d : Nat)
    (hr : a.received = b.received) (hc : a.closes = b.closes) (hf : a.fault = b.fault)
    (hwg : a.wg = b.wg + d) (hdone : e = Effect.done → b.wg ≠ 0)
    (h : exec c user a e = some a') :
    ∃ b' new, exec c user b e = some b' ∧ a'.received = b'.received ∧
      a'.closes = b'.closes ∧ a'.fault = b'.fault ∧ a'.wg = b'.wg + d ∧
      a'.orchestrator = a.orchestrator ∧ b'.orchestrator = b.orchestrator ∧
      a'.workers = a.workers ++ new ∧ b'.workers = b.workers ++ new := by
  cases e with
  | send ev =>
    simp only [exec, Option.some.injEq] at h
    subst h
    by_cases h0 : a.closes = 0
    · exact ⟨_, [], rfl, by simp [h0, ← hc, hr], by simp [h0, ← hc], by simp [h0, ← hc, hf],
        by simp [h0, ← hc, hwg], by simp [h0], by simp [h0, ← hc], by simp [h0],
        by simp [h0, ← hc]⟩
    · exact ⟨_, [], rfl, by simp [h0, ← hc, hr], by simp [h0, ← hc], by simp [h0, ← hc],
        by simp [h0, ← hc, hwg], by simp [h0], by simp [h0, ← hc], by simp [h0],
        by simp [h0, ← hc]⟩
  | add =>
    simp only [exec, Option.some.injEq] at h
    subst h
    exact ⟨_, [], rfl, hr, hc, hf, by simp only [hwg]; omega, rfl, rfl, by simp, by simp⟩
  | goDiscoverComments r =>
    simp only [exec, Option.some.injEq] at h
    subst h
    exact ⟨_, [discoverComments c user r], rfl, hr, hc, hf, hwg, rfl, rfl, rfl, rfl⟩
  | goGetComments r pr f =>
    simp only [exec, Option.some.injEq] at h
    subst h
    exact ⟨_, [getComments c r pr f], rfl, hr, hc, hf, hwg, rfl, rfl, rfl, rfl⟩
  | done =>
    simp only [exec, Option.some.injEq] at h
    subst h
    have hb := hdone rfl
    have ha : a.wg ≠ 0 := by omega
    exact ⟨_, [], rfl, by simp [ha, hb, hr], by simp [ha, hb, hc], by simp [ha, hb, hf],
      by simp only [exec, ha, hb, if_false]; omega, by simp [ha], by simp [hb], by simp [ha],
      by simp [hb]⟩
  | wait =>
    simp only [exec] at h
    split at h
    · rename_i h0
      simp only [Option.some.injEq] at h
      subst h
      have hb : b.wg = 0 := by omega
      have hd : d = 0 := by omega
      exact ⟨b, [], by simp [exec, hb], hr, hc, hf, hwg, rfl, rfl, by simp, by simp⟩
    · simp at h
  | close =>
    simp only [exec, Option.some.injEq] at h
    subst h
    by_cases h0 : a.closes = 0
    · exact ⟨_, [], rfl, by simp [h0, ← hc, hr], by simp [h0, ← hc], by simp [h0, ← hc, hf],
        by simp [h0, ← hc, hwg], by simp [h0], by simp [h0, ← hc], by simp [h0],
        by simp [h0, ← hc]⟩
    · exact ⟨_, [], rfl, by simp [h0, ← hc, hr], by simp [h0, ← hc], by simp [h0, ← hc],
        by simp [h0, ← hc, hwg], by simp [h0], by simp [h0, ← hc], by simp [h0],
        by simp [h0, ← hc]⟩
  | _ =>
    simp only [exec, Option.some.injEq] at h
    subst h
    exact ⟨_, [], rfl, hr, hc, hf, hwg, rfl, rfl, by simp, by simp⟩

theorem wg_pos_of_running (s : System) (inv : Invariant s) (w : List Effect)
    (hw : w ∈ s.workers) (hne : w ≠ []) : 0 < s.wg := by
  have hcount := inv.count
  have h1 := le_sum_map weight s.workers w hw
  have h2 : 1 ≤ weight w := by
    cases w with
    | nil => exact absurd rfl hne
    | cons e rest => simp [weight, running]
  simp only [registered] at hcount
  omega

theorem orchestrator_head_ne_done (s : System) (inv : Invariant s) (e : Effect)
    (rest : List Effect) (h : s.orchestrator = e :: rest) : e ≠ Effect.done := by
  intro he
  subst he
  have ho := inv.orchestrator
  rw [h] at ho
  rcases ho with h0 | h1 | h2 | ⟨r, rest', h3, _⟩
  · cases h0
  · cases h1
  · cases h2
  · cases h3

theorem sim_step_orchestrator (c : Stash.Stash) (user : String) (r : Stash.Repository)
    (err : String)
    (hfail : discoverComments c user r =
      [Effect.listPullRequests r.ProjectKey r.Slug "OPEN", Effect.log err, Effect.done])
    (a b a' : System) (hs : Sim r err a b) (inv : Invariant b)
    (h : step c user a 0 = some a') :
    ∃ b', (b' = b ∨ ∃ i', step c user b i' = some b') ∧ Sim r err a' b' := by
  simp only [step] at h
  cases ho : a.orchestrator with
  | nil => simp [ho] at h
  | cons e rest =>
    rw [ho] at h
    simp only at h
    rcases hs.phase with ⟨o1, o2, h1, h2, h3, h4⟩ | ⟨h1, h3, h4⟩ | ⟨h1, ws1, ws2, w, hw, h3, h5, h4⟩
    · rw [ho] at h1
      cases o1 with
      | nil =>
        simp only [List.nil_append, List.cons.injEq] at h1
        obtain ⟨he, hrest⟩ := h1
        subst he hrest
        simp only [exec, Option.some.injEq] at h
        subst h
        refine ⟨b, Or.inl rfl, hs.received, hs.closes, hs.fault, Or.inr (Or.inl ⟨?_, h3, ?_⟩)⟩
        · simp [h2]
        · simp [h4]
      | cons e1 o1' =>
        simp only [List.cons_append, List.cons.injEq] at h1
        obtain ⟨he, hrest⟩ := h1
        subst he hrest
        have hbo : b.orchestrator = e :: (o1' ++ o2) := by simp [h2]
        obtain ⟨b', new, hb, hr', hc', hf', hwg', hao, hbo', haw, hbw⟩ :=
          exec_sim c user
            { a with orchestrator := o1' ++ Effect.add :: Effect.goDiscoverComments r :: o2 }
            { b with orchestrator := o1' ++ o2 } a' e 0 hs.received hs.closes
            hs.fault (by simpa using h4)
            (fun he => absurd he (orchestrator_head_ne_done b inv e _ hbo)) h
        refine ⟨b', Or.inr ⟨0, by simp only [step, hbo]; exact hb⟩, hr', hc', hf',
          Or.inl ⟨o1', o2, hao, hbo', ?_, by simpa using hwg'⟩⟩
        rw [haw, hbw]
        simp [h3]
    · rw [ho] at h1
      simp only [List.cons.injEq] at h1
      obtain ⟨he, hrest⟩ := h1
      subst he hrest
      simp only [exec, Option.some.injEq] at h
      subst h
      refine ⟨b, Or.inl rfl, hs.received, hs.closes, hs.fault,
        Or.inr (Or.inr ⟨rfl, b.workers, [], _, Or.inl hfail, by simp [h3], by simp, ?_⟩)⟩
      simp [h4, hfail, running]
    · rw [ho] at h1
      obtain ⟨b', new, hb, hr', hc', hf', hwg', hao, hbo', haw, hbw⟩ :=
        exec_sim c user { a with orchestrator := rest } { b with orchestrator := rest } a' e
          (if running w then 1 else 0)
          hs.received hs.closes hs.fault (by simpa using h4)
          (fun he => absurd he (orchestrator_head_ne_done b inv e _ h1.symm)) h
      refine ⟨b', Or.inr ⟨0, by simp only [step, ← h1]; exact hb⟩, hr', hc', hf',
        Or.inr (Or.inr ⟨by rw [hao, hbo'], ws1, ws2 ++ new, w, hw, ?_, ?_, hwg'⟩)⟩
      · rw [haw]
        simp [h3]
      · rw [hbw]
        simp [h5]

theorem sim_step_worker (c : Stash.Stash) (user : String) (r : Stash.Repository)
    (err : String) (a b a' : System) (i : Nat) (hs : Sim r err a b) (inv : Invariant b)
    (h : step c user a (i + 1) = some a') :
    ∃ b', (b' = b ∨ ∃ i', step c user b i' = some b') ∧ Sim r err a' b' := by
  obtain ⟨pre, e, rest, post, hsplit, _, hexec⟩ := split_of_step_worker c user a a' i h
  rcases hs.phase with ⟨o1, o2, h1, h2, h3, h4⟩ | ⟨h1, h3, h4⟩ | ⟨h1, ws1, ws2, w, hw, h3, h5, h4⟩
  · have hbs : b.workers = pre ++ (e :: rest) :: post := by rw [← h3, hsplit]
    have hmem : (e :: rest) ∈ b.workers := by rw [hbs]; simp
    obtain ⟨b', new, hb, hr', hc', hf', hwg', hao, hbo', haw, hbw⟩ :=
      exec_sim c user { a with workers := pre ++ rest :: post }
        { b with workers := pre ++ rest :: post } a' e 0 hs.received hs.closes hs.fault
        (by simpa using h4)
        (fun _ => Nat.pos_iff_ne_zero.1 (wg_pos_of_running b inv _ hmem (by simp))) hexec
    refine ⟨b', Or.inr ⟨pre.length + 1, step_worker_of_split c user b b' pre post e rest hbs hb⟩,
      hr', hc', hf', Or.inl ⟨o1, o2, by rw [hao]; exact h1, by rw [hbo']; exact h2, ?_,
        by simpa using hwg'⟩⟩
    rw [haw, hbw]
  · have hbs : b.workers = pre ++ (e :: rest) :: post := by rw [← h3, hsplit]
    have hmem : (e :: rest) ∈ b.workers := by rw [hbs]; simp
    obtain ⟨b', new, hb, hr', hc', hf', hwg', hao, hbo', haw, hbw⟩ :=
      exec_sim c user { a with workers := pre ++ rest :: post }
        { b with workers := pre ++ rest :: post } a' e 1 hs.received hs.closes hs.fault
        (by simpa using h4)
        (fun _ => Nat.pos_iff_ne_zero.1 (wg_pos_of_running b inv _ hmem (by simp))) hexec
    refine ⟨b', Or.inr ⟨pre.length + 1, step_worker_of_split c user b b' pre post e rest hbs hb⟩,
      hr', hc', hf', Or.inr (Or.inl ⟨by rw [hao, hbo']; exact h1, ?_, hwg'⟩)⟩
    rw [haw, hbw]
  · rw [h3] at hsplit
    rcases split_cases ws1 ws2 pre post w (e :: rest) hsplit with
      ⟨mid, hws1, hpost⟩ | ⟨hpre, hew, hpost⟩ | ⟨mid, hpre, hws2⟩
    · have hbs : b.workers = pre ++ (e :: rest) :: (mid ++ ws2) := by simp [h5, hws1]
      have hmem : (e :: rest) ∈ b.workers := by rw [hbs]; simp
      obtain ⟨b', new, hb, hr', hc', hf', hwg', hao, hbo', haw, hbw⟩ :=
        exec_sim c user { a with workers := pre ++ rest :: post }
          { b with workers := pre ++ rest :: (mid ++ ws2) } a' e (if running w then 1 else 0)
          hs.received hs.closes hs.fault (by simpa using h4)
          (fun _ => Nat.pos_iff_ne_zero.1 (wg_pos_of_running b inv _ hmem (by simp))) hexec
      refine ⟨b', Or.inr ⟨pre.length + 1,
          step_worker_of_split c user b b' pre (mid ++ ws2) e rest hbs hb⟩,
        hr', hc', hf', Or.inr (Or.inr ⟨by rw [hao, hbo']; exact h1,
          pre ++ rest :: mid, ws2 ++ new, w, hw, ?_, ?_, hwg'⟩)⟩
      · rw [haw]
        simp [hpost]
      · rw [hbw]
        simp
    · subst hpre hpost
      have hfa := hs.fault
      have hre := hs.received
      have hcl := hs.closes
      rcases hw with hw | hw | hw | hw
      · rw [hw] at hew h4
        simp only [List.cons.injEq] at hew
        obtain ⟨he, hrest⟩ := hew
        subst he hrest
        simp only [exec, Option.some.injEq] at hexec
        subst hexec
        exact ⟨b, Or.inl rfl, hre, hcl, hfa, Or.inr (Or.inr ⟨h1, pre, post, _,
          Or.inr (Or.inl rfl), rfl, h5, by simpa [running] using h4⟩)⟩
      · rw [hw] at hew h4
        simp only [List.cons.injEq] at hew
        obtain ⟨he, hrest⟩ := hew
        subst he hrest
        simp only [exec, Option.some.injEq] at hexec
        subst hexec
        exact ⟨b, Or.inl rfl, hre, hcl, hfa, Or.inr (Or.inr ⟨h1, pre, post, _,
          Or.inr (Or.inr (Or.inl rfl)), rfl, h5, by simpa [running] using h4⟩)⟩
      · rw [hw] at hew h4
        simp only [List.cons.injEq] at hew
        obtain ⟨he, hrest⟩ := hew
        subst he hrest
        have h4' : a.wg = b.wg + 1 := by simpa [running] using h4
        have hne : a.wg ≠ 0 := by omega
        simp only [exec, hne, if_false, Option.some.injEq] at hexec
        subst hexec
        exact ⟨b, Or.inl rfl, hre, hcl, hfa, Or.inr (Or.inr ⟨h1, pre, post, [],
          Or.inr (Or.inr (Or.inr rfl)), rfl, h5, by simp [running]; omega⟩)⟩
      · rw [hw] at hew
        cases hew
    · have hbs : b.workers = (ws1 ++ mid) ++ (e :: rest) :: post := by simp [h5, hws2]
      have hmem : (e :: rest) ∈ b.workers := by rw [hbs]; simp
      obtain ⟨b', new, hb, hr', hc', hf', hwg', hao, hbo', haw, hbw⟩ :=
        exec_sim c user { a with workers := pre ++ rest :: post }
          { b with workers := (ws1 ++ mid) ++ rest :: post } a' e (if running w then 1 else 0)
          hs.received hs.closes hs.fault (by simpa using h4)
          (fun _ => Nat.pos_iff_ne_zero.1 (wg_pos_of_running b inv _ hmem (by simp))) hexec
      refine ⟨b', Or.inr ⟨(ws1 ++ mid).length + 1,
          step_worker_of_split c user b b' (ws1 ++ mid) post e rest hbs hb⟩,
        hr', hc', hf', Or.inr (Or.inr ⟨by rw [hao, hbo']; exact h1,
          ws1, mid ++ rest :: post ++ new, w, hw, ?_, ?_, hwg'⟩)⟩
      · rw [haw]
        simp [hpre]
      · rw [hbw]
        simp

/-- A step of the run over the list is a step of the run over the list
without the failing repository, or no step of it. -/
theorem sim_step (c : Stash.Stash) (user : String) (r : Stash.Repository) (err : String)
    (hfail : discoverComments c user r =
      [Effect.listPullRequests r.ProjectKey r.Slug "OPEN", Effect.log err, Effect.done])
    (a b a' : System) (i : Nat) (hs : Sim r err a b) (inv : Invariant b)
    (h : step c user a i = some a') :
    ∃ b', (b' = b ∨ ∃ i', step c user b i' = some b') ∧ Sim r err a' b' := by
  cases i with
  | zero => exact sim_step_orchestrator c user r err hfail a b a' hs inv h
  | succ i => exact sim_step_worker c user r err a b a' i hs inv h

theorem sim_runSchedule (c : Stash.Stash) (user : String) (r : Stash.Repository) (err : String)
    (hfail : discoverComments c user r =
      [Effect.listPullRequests r.ProjectKey r.Slug "OPEN", Effect.log err, Effect.done])
    (schedule : List Nat) (a b a' : System) (hs : Sim r err a b) (inv : Invariant b)
    (h : runSchedule c user a schedule = some a') :
    ∃ schedule' b', runSchedule c user b schedule' = some b' ∧ Sim r err a' b' := by
  induction schedule generalizing a b with
  | nil =>
    simp only [runSchedule, Option.some.injEq] at h
    subst h
    exact ⟨[], b, rfl, hs⟩
  | cons i rest ih =>
    simp only [runSchedule] at h
    cases hstep : step c user a i with
    | none => simp [hstep] at h
    | some a1 =>
      rw [hstep] at h
      obtain ⟨b1, hb1, hs1⟩ := sim_step c user r err hfail a b a1 i hs inv hstep
      rcases hb1 with hb1 | ⟨i', hb1⟩
      · subst hb1
        exact ih a1 b1 hs1 inv h
      · obtain ⟨schedule', b', hrun, hs'⟩ :=
          ih a1 b1 hs1 (invariant_step c user b b1 i' hb1 inv) h
        exact ⟨i' :: schedule', b', by simp [runSchedule, hb1, hrun], hs'⟩

theorem sim_init (r : Stash.Repository) (err : String)
    (before after : List Stash.Repository) :
    Sim r err (System.init (before ++ r :: after)) (System.init (before ++ after)) := by
  refine ⟨rfl, rfl, rfl, Or.inl ⟨before.flatMap fun x => [Effect.add, Effect.goDiscoverComments x],
    (after.flatMap fun x => [Effect.add, Effect.goDiscoverComments x]) ++
      [Effect.wait, Effect.close], ?_, ?_, rfl, rfl⟩⟩
  · simp [System.init, orchestrate, List.flatMap_append, List.flatMap_cons]
  · simp [System.init, orchestrate, List.flatMap_append]

/-- Every run over the list is matched by a run over the list without the
failing repository that delivers the same events in the same order. -/
theorem reduced_run_of_run (c : Stash.Stash) (user : String) (r : Stash.Repository)
    (err : String) (hfail : (c.GetPullRequests r.ProjectKey r.Slug "OPEN").2 = some err)
    (before after : List Stash.Repository) (s : System)
    (h : Reachable c user (before ++ r :: after) s) :
    ∃ s', Reachable c user (before ++ after) s' ∧ s'.received = s.received ∧
      s'.closes = s.closes := by
  obtain ⟨schedule, hrun⟩ := h
  obtain ⟨schedule', s', hrun', hs⟩ :=
    sim_runSchedule c user r err (discoverComments_of_error c user r err hfail) schedule _ _ s
      (sim_init r err before after) (invariant_init _) hrun
  exact ⟨s', ⟨schedule', hrun'⟩, hs.received.symm, hs.closes.symm⟩

/-! ## Facts about rendering -/

theorem printComment_of_isSentinel (indent : String) (review : GoMap String) (c : Stash.Comment)
    (h : isSentinel c = true) : printComment indent review c = [] := by
  obtain ⟨a, t, replies⟩ := c
  simp only [isSentinel, Stash.Comment.Text, Stash.Comment.Comments, Bool.and_eq_true,
    decide_eq_true_eq, List.isEmpty_iff] at h
  obtain ⟨ht, hr⟩ := h
  subst ht hr
  simp [printComment, printCommentsAux]

theorem printCommentsAux_filter (indent : String) (review : GoMap String)
    (cs : List Stash.Comment) :
    printCommentsAux indent review (cs.filter fun c => !isSentinel c) =
      printCommentsAux indent review cs := by
  induction cs with
  | nil => rfl
  | cons c cs ih =>
    cases h : isSentinel c with
    | true => simp [List.filter, h, printCommentsAux, printComment_of_isSentinel, ih]
    | false => simp [List.filter, h, printCommentsAux, ih]

theorem indent_step (indent : String) (d : Nat) :
    indent ++ String.mk (List.replicate (2 * d) ' ') ++ "  " =
      indent ++ String.mk (List.replicate (2 * (d + 1)) ' ') := by
  apply String.ext
  simp only [String.data_append]
  have h : List.replicate (2 * (d + 1)) ' ' = List.replicate (2 * d) ' ' ++ "  ".data := by
    rw [show 2 * (d + 1) = 2 * d + 2 from by ring, List.replicate_add]
    rfl
  rw [h, List.append_assoc]

mutual
theorem printComment_eq (indent : String) (review : GoMap String) (d : Nat) :
    ∀ c : Stash.Comment,
      printComment (indent ++ String.mk (List.replicate (2 * d) ' ')) review c =
        ((preorder d c).filter fun dc => decide (dc.2.Text ≠ "")).map
          (renderLine indent review)
  | Stash.Comment.mk author text replies => by
    have ih := printCommentsAux_eq indent review (d + 1) replies
    rw [← indent_step] at ih
    by_cases ht : text = ""
    · simp [printComment, preorder, List.filter, Stash.Comment.Text, ht, ih]
    · simp [printComment, preorder, List.filter, Stash.Comment.Text, ht, ih, renderLine,
        Stash.Comment.AuthorName]
theorem printCommentsAux_eq (indent : String) (review : GoMap String) (d : Nat) :
    ∀ cs : List Stash.Comment,
      printCommentsAux (indent ++ String.mk (List.replicate (2 * d) ' ')) review cs =
        ((preorderAll d cs).filter fun dc => decide (dc.2.Text ≠ "")).map
          (renderLine indent review)
  | [] => by simp [printCommentsAux, preorderAll]
  | c :: cs => by
    have h1 := printComment_eq indent review d c
    have h2 := printCommentsAux_eq indent review d cs
    simp [printCommentsAux, preorderAll, List.filter_append, h1, h2]
end

/-! # The claims -/

/-! ## The aggregation loop -/

/-- C1, as stated, fails: when the only event consumed for the pair
("PR-1", "svc") is the sentinel event, the record stored for the pair has the
comment list `[sentinel]`, and `sentinel` has empty text and no replies. -/
theorem aggregate_stores_sentinel :
    (aggregate [sentinelEvent1]).find "PR-1" "svc"
      = some { PullRequest := pr1, Comments := [sentinel] } ∧
    isSentinel sentinel = true :=
  ⟨rfl, rfl⟩

/-- C1, amended: the aggregation loop stores the comment of every event it
consumes, the sentinel included: the comment list of the record of a pair is
the list of the comments of the events of that pair, in arrival order.  The
sentinel is suppressed when the record is rendered: `printComments` writes for
the comment list what it writes for the list without its sentinel comments. -/
theorem sentinel_suppressed_at_rendering (cs : List Comment) (t r : String) (p : PR)
    (h : (aggregate cs).find t r = some p) :
    p.Comments = (eventsFor t r cs).map (·.Comment) ∧
    ∀ (indent : String) (review : GoMap String),
      printComments indent p.Comments review =
        printComments indent (p.Comments.filter fun c => !isSentinel c) review := by
  rw [find_aggregate] at h
  obtain ⟨c, rest, _, _, hc⟩ := recordOf_eq_some _ _ h
  refine ⟨hc, ?_⟩
  intro indent review
  simp only [printComments]
  exact (printCommentsAux_filter indent review p.Comments).symm

/-- A run of the amended C1: the sentinel event and one review comment for the
pair ("PR-1", "svc"). -/
theorem sentinel_suppressed_at_rendering_witness :
    (aggregate [sentinelEvent1, fixEvent1]).find "PR-1" "svc"
      = some { PullRequest := pr1, Comments := [sentinel, fixComment] } ∧
    [sentinel, fixComment] = (eventsFor "PR-1" "svc" [sentinelEvent1, fixEvent1]).map (·.Comment) ∧
    ∀ (indent : String) (review : GoMap String),
      printComments indent [sentinel, fixComment] review =
        printComments indent ([sentinel, fixComment].filter fun c => !isSentinel c) review :=
  ⟨rfl, sentinel_suppressed_at_rendering [sentinelEvent1, fixEvent1] "PR-1" "svc"
    { PullRequest := pr1, Comments := [sentinel, fixComment] } rfl⟩

/-- C2, as stated, fails: after the single sentinel event the comment-list
lengths sum to 1, while the sequence holds no event whose comment is not the
sentinel, and the one record of the result has a comment list that is not
empty. -/
theorem totalComments_counts_sentinel :
    (aggregate [sentinelEvent1]).totalComments = 1 ∧
    ([sentinelEvent1].filter fun c => !isSentinel c.Comment).length = 0 ∧
    ((aggregate [sentinelEvent1]).records.map fun p => p.Comments.length) = [1] := by
  decide

/-- C2, amended: the comment-list lengths of the records sum to the number of
all events consumed, sentinel events included; so a sequence made only of
sentinel events yields records whose comment lists are not empty and hold
sentinels only. -/
theorem totalComments_counts_all_events (cs : List Comment) :
    (aggregate cs).totalComments = cs.length ∧
    ((∀ c ∈ cs, c.Comment = sentinel) →
      ∀ p ∈ (aggregate cs).records, p.Comments ≠ [] ∧ ∀ x ∈ p.Comments, x = sentinel) := by
  refine ⟨totalComments_aggregate cs, ?_⟩
  intro hall p hp
  obtain ⟨t, r, hf⟩ := (mem_records_iff _ (wellFormed_aggregate cs) p).1 hp
  rw [find_aggregate] at hf
  obtain ⟨c, rest, hl, _, hc⟩ := recordOf_eq_some _ _ hf
  rw [hc]
  constructor
  · rw [hl]
    simp
  · intro x hx
    obtain ⟨e, he, rfl⟩ := List.mem_map.1 hx
    exact hall e (List.mem_of_mem_filter he)

/-- A run of the amended C2: two sentinel events for two repositories. -/
theorem totalComments_counts_all_events_witness :
    (∀ c ∈ [sentinelEvent1, { sentinelEvent1 with Repository := "web" }],
      c.Comment = sentinel) ∧
    (aggregate [sentinelEvent1, { sentinelEvent1 with Repository := "web" }]).totalComments = 2 ∧
    ∀ p ∈ (aggregate [sentinelEvent1, { sentinelEvent1 with Repository := "web" }]).records,
      p.Comments ≠ [] ∧ ∀ x ∈ p.Comments, x = sentinel :=
  ⟨by
      intro c hc
      simp only [List.mem_cons, List.mem_singleton, List.not_mem_nil, or_false] at hc
      rcases hc with rfl | rfl <;> rfl,
    (totalComments_counts_all_events
      [sentinelEvent1, { sentinelEvent1 with Repository := "web" }]).1,
    (totalComments_counts_all_events
      [sentinelEvent1, { sentinelEvent1 with Repository := "web" }]).2 (by
        intro c hc
        simp only [List.mem_cons, List.mem_singleton, List.not_mem_nil, or_false] at hc
        rcases hc with rfl | rfl <;> rfl)⟩

/-- C3: when the events of a pair carry the same pull request, the results of
the aggregation loop on a sequence and on a permutation of it have the same
pairs as keys, and under every pair the same pull request and the same comments
up to their order. -/
theorem grouping_order_independent (cs cs' : List Comment) (hperm : cs.Perm cs')
    (hsnap : ∀ a ∈ cs, ∀ b ∈ cs, a.TaskID = b.TaskID → a.Repository = b.Repository →
      a.PullRequest = b.PullRequest) (t r : String) :
    ((aggregate cs).find t r).isSome = ((aggregate cs').find t r).isSome ∧
    ∀ p p', (aggregate cs).find t r = some p → (aggregate cs').find t r = some p' →
      p.PullRequest = p'.PullRequest ∧ p.Comments.Perm p'.Comments := by
  have hf : (eventsFor t r cs).Perm (eventsFor t r cs') := List.Perm.filter _ hperm
  rw [find_aggregate, find_aggregate]
  constructor
  · cases h1 : eventsFor t r cs with
    | nil =>
      rw [h1] at hf
      rw [List.Perm.nil_eq hf]
    | cons a l =>
      cases h2 : eventsFor t r cs' with
      | nil =>
        rw [h2] at hf
        rw [List.Perm.eq_nil hf] at h1
        simp at h1
      | cons b l' => simp [recordOf]
  · intro p p' hp hp'
    obtain ⟨a, l, hl, hpr, hc⟩ := recordOf_eq_some _ _ hp
    obtain ⟨b, l', hl', hpr', hc'⟩ := recordOf_eq_some _ _ hp'
    have ha : a ∈ eventsFor t r cs := by rw [hl]; exact List.mem_cons_self _ _
    have hb : b ∈ eventsFor t r cs := by
      apply hf.symm.subset
      rw [hl']
      exact List.mem_cons_self _ _
    have hak := List.mem_filter.1 ha
    have hbk := List.mem_filter.1 hb
    simp only [decide_eq_true_eq] at hak hbk
    constructor
    · rw [hpr, hpr']
      exact hsnap a hak.1 b hbk.1 (hak.2.1.trans hbk.2.1.symm) (hak.2.2.trans hbk.2.2.symm)
    · rw [hc, hc']
      exact hf.map _

/-- A run of C3: the sentinel event and a review comment of one pull request,
in both arrival orders. -/
theorem grouping_order_independent_witness :
    [sentinelEvent1, fixEvent1].Perm [fixEvent1, sentinelEvent1] ∧
    (∀ a ∈ [sentinelEvent1, fixEvent1], ∀ b ∈ [sentinelEvent1, fixEvent1],
      a.TaskID = b.TaskID → a.Repository = b.Repository → a.PullRequest = b.PullRequest) ∧
    ((aggregate [sentinelEvent1, fixEvent1]).find "PR-1" "svc").isSome
      = ((aggregate [fixEvent1, sentinelEvent1]).find "PR-1" "svc").isSome ∧
    ∀ p p', (aggregate [sentinelEvent1, fixEvent1]).find "PR-1" "svc" = some p →
      (aggregate [fixEvent1, sentinelEvent1]).find "PR-1" "svc" = some p' →
      p.PullRequest = p'.PullRequest ∧ p.Comments.Perm p'.Comments :=
  ⟨List.Perm.swap _ _ _, by decide,
    grouping_order_independent [sentinelEvent1, fixEvent1] [fixEvent1, sentinelEvent1]
      (List.Perm.swap _ _ _) (by decide) "PR-1" "svc"⟩

/-- C5: the pull request stored for a pair is the one of the first event of
the sequence with that pair; an event for a pair that already has a record
leaves the pull request of the record as it is; and an event leaves the record
of every other pair as it is. -/
theorem first_snapshot_canonical :
    (∀ (cs : List Comment) (t r : String) (c : Comment),
      cs.find? (fun c => decide (c.TaskID = t ∧ c.Repository = r)) = some c →
      ∃ p, (aggregate cs).find t r = some p ∧ p.PullRequest = c.PullRequest) ∧
    (∀ (info : Info) (c : Comment) (p : PR),
      info.find c.TaskID c.Repository = some p →
      ∃ p', (aggregateStep info c).find c.TaskID c.Repository = some p' ∧
        p'.PullRequest = p.PullRequest) ∧
    (∀ (info : Info) (c : Comment) (t r : String),
      ¬ (c.TaskID = t ∧ c.Repository = r) →
      (aggregateStep info c).find t r = info.find t r) := by
  refine ⟨?_, ?_, ?_⟩
  · intro cs t r c h
    rw [find?_eq_head?_eventsFor] at h
    rw [find_aggregate]
    cases hl : eventsFor t r cs with
    | nil => simp [hl] at h
    | cons a l =>
      simp only [hl, List.head?_cons, Option.some.injEq] at h
      subst h
      exact ⟨_, rfl, rfl⟩
  · intro info c p h
    rw [find_aggregateStep, h]
    simp
  · intro info c t r h
    rw [find_aggregateStep, if_neg h]

/-- A run of C5: two events of the pair ("PR-1", "svc") with different pull
requests and an event of another pair in between. -/
theorem first_snapshot_canonical_witness :
    [sentinelEvent1, { sentinelEvent1 with Repository := "web" },
      { fixEvent1 with PullRequest := { pr1 with ID := 2 } }].find?
        (fun c => decide (c.TaskID = "PR-1" ∧ c.Repository = "svc")) = some sentinelEvent1 ∧
    (∃ p, (aggregate [sentinelEvent1, { sentinelEvent1 with Repository := "web" },
        { fixEvent1 with PullRequest := { pr1 with ID := 2 } }]).find "PR-1" "svc" = some p ∧
      p.PullRequest = pr1) ∧
    (∃ p', (aggregateStep (aggregate [sentinelEvent1])
        { fixEvent1 with PullRequest := { pr1 with ID := 2 } }).find "PR-1" "svc" = some p' ∧
      p'.PullRequest = pr1) ∧
    (aggregateStep (aggregate [sentinelEvent1]) { sentinelEvent1 with Repository := "web" }).find
        "PR-1" "svc" = (aggregate [sentinelEvent1]).find "PR-1" "svc" :=
  ⟨rfl,
    first_snapshot_canonical.1 _ "PR-1" "svc" sentinelEvent1 rfl,
    first_snapshot_canonical.2.1 (aggregate [sentinelEvent1])
      { fixEvent1 with PullRequest := { pr1 with ID := 2 } }
      { PullRequest := pr1, Comments := [sentinel] } rfl,
    first_snapshot_canonical.2.2 (aggregate [sentinelEvent1])
      { sentinelEvent1 with Repository := "web" } "PR-1" "svc" (by decide)⟩

/-! ## The workers -/

/-- C6: when the listing of the open pull requests of a repository succeeds,
`discoverComments` itself sends exactly one event for every listed request
whose author is the configured user, by equality of strings, in the order of
the listing, with the branch of the request as task id, the slug of the
repository, the request and the sentinel comment; a request of another author
adds nothing to what the worker does: no event, no listing of changed files,
no `getComments` worker. -/
theorem discoverComments_author_filter (c : Stash.Stash) (user : String)
    (r : Stash.Repository) (prs : List Stash.PullRequest)
    (h : c.GetPullRequests r.ProjectKey r.Slug "OPEN" = (prs, none)) :
    sent (discoverComments c user r) =
      ((prs.filter fun pr => decide (pr.AuthorUserSlug = user)).map fun pr =>
        { TaskID := pr.FromRefDisplayID, Repository := r.Slug, PullRequest := pr,
          Comment := sentinel }) ∧
    discoverComments c user r =
      [Effect.listPullRequests r.ProjectKey r.Slug "OPEN"] ++
        (prs.filter fun pr => decide (pr.AuthorUserSlug = user)).flatMap (discoverPR c user r) ++
        [Effect.done] ∧
    ∀ pr, pr.AuthorUserSlug ≠ user →
      discoverPR c user r pr = [] ∧ sent (discoverPR c user r pr) = [] ∧
        changesListed (discoverPR c user r pr) = [] ∧ spawned (discoverPR c user r pr) = [] := by
  have hd := discoverComments_of_ok c user r prs h
  refine ⟨?_, ?_, ?_⟩
  · rw [hd, sent_append, sent_append, sent_flatMap_discoverPR]
    have h1 : sent [Effect.listPullRequests r.ProjectKey r.Slug "OPEN"] = [] := rfl
    have h2 : sent [Effect.done] = [] := rfl
    rw [h1, h2]
    simp
  · rw [hd, discoverPR_filter]
  · intro pr hpr
    have h0 : discoverPR c user r pr = [] := by simp [discoverPR, hpr]
    rw [h0]
    exact ⟨rfl, rfl, rfl, rfl⟩

/-- A run of C6: project "A" lists `pr1` of "me" and `prOther` of "Me"; for
the user "me" only `pr1` is announced. -/
theorem discoverComments_author_filter_witness :
    client1.GetPullRequests repoA.ProjectKey repoA.Slug "OPEN" = ([pr1, prOther], none) ∧
    sent (discoverComments client1 "me" repoA) = [sentinelEvent1] ∧
    discoverPR client1 "me" repoA prOther = [] :=
  ⟨rfl,
    (discoverComments_author_filter client1 "me" repoA [pr1, prOther] rfl).1,
    ((discoverComments_author_filter client1 "me" repoA [pr1, prOther] rfl).2.2 prOther
      (by decide)).1⟩

/-- C7, on the failing input: `GetComments` returns the comment `fixComment`
together with the error "boom"; `getComments` logs the error and goes on to
send an event for the comment. -/
theorem getComments_sends_after_error :
    client3.GetComments repoA.ProjectKey repoA.Slug (Itoa pr1.ID) "a.go"
      = ([fixComment], some "boom") ∧
    getComments client3 repoA pr1 "a.go" =
      [Effect.listComments "A" "svc" "1" "a.go", Effect.log "boom", Effect.send fixEvent1,
        Effect.done] ∧
    sent (getComments client3 repoA pr1 "a.go") = [fixEvent1] :=
  ⟨rfl, rfl, rfl⟩

/-- C4, as stated, fails: the repositories `repoA` and `repoD` have the slug
"svc" in two projects, each lists an open request of the user from the branch
"PR-1", and the two events of the run have the same task id and repository
and different pull requests. -/
theorem same_pair_different_snapshots :
    allEvents client2 "me" [repoA, repoD] =
      [sentinelEvent1, { sentinelEvent1 with PullRequest := { pr1 with ID := 2 } }] ∧
    sentinelEvent1.TaskID = "PR-1" ∧ sentinelEvent1.Repository = "svc" ∧
    sentinelEvent1.PullRequest ≠ { pr1 with ID := 2 } :=
  ⟨rfl, rfl, rfl, by decide⟩

/-- C4, amended: every event of a run carries a pull request that the listing
of a repository of the run returned without error and that the user wrote,
with the branch of that request as task id and the slug of that repository;
so two events with the same task id and repository carry the same pull request
whenever the requests of the user listed over the run that share slug and
branch are one and the same request. -/
theorem snapshots_agree_of_distinct_keys (c : Stash.Stash) (user : String)
    (repos : List Stash.Repository) :
    (∀ e ∈ allEvents c user repos, ∃ r ∈ repos,
      (c.GetPullRequests r.ProjectKey r.Slug "OPEN").2 = none ∧
      ∃ pr ∈ (c.GetPullRequests r.ProjectKey r.Slug "OPEN").1,
        pr.AuthorUserSlug = user ∧ e.TaskID = pr.FromRefDisplayID ∧ e.Repository = r.Slug ∧
          e.PullRequest = pr) ∧
    ((∀ r ∈ repos, ∀ r' ∈ repos,
        (c.GetPullRequests r.ProjectKey r.Slug "OPEN").2 = none →
        (c.GetPullRequests r'.ProjectKey r'.Slug "OPEN").2 = none →
        ∀ pr ∈ (c.GetPullRequests r.ProjectKey r.Slug "OPEN").1,
        ∀ pr' ∈ (c.GetPullRequests r'.ProjectKey r'.Slug "OPEN").1,
          pr.AuthorUserSlug = user → pr'.AuthorUserSlug = user → r.Slug = r'.Slug →
          pr.FromRefDisplayID = pr'.FromRefDisplayID → pr = pr') →
      ∀ a ∈ allEvents c user repos, ∀ b ∈ allEvents c user repos,
        a.TaskID = b.TaskID → a.Repository = b.Repository → a.PullRequest = b.PullRequest) := by
  have hsrc : ∀ e ∈ allEvents c user repos, ∃ r ∈ repos,
      (c.GetPullRequests r.ProjectKey r.Slug "OPEN").2 = none ∧
      ∃ pr ∈ (c.GetPullRequests r.ProjectKey r.Slug "OPEN").1,
        pr.AuthorUserSlug = user ∧ e.TaskID = pr.FromRefDisplayID ∧ e.Repository = r.Slug ∧
          e.PullRequest = pr := by
    intro e he
    simp only [allEvents, List.mem_flatMap] at he
    obtain ⟨r, hr, he⟩ := he
    exact ⟨r, hr, mem_repositoryEvents c user r e he⟩
  refine ⟨hsrc, ?_⟩
  intro hkey a ha b hb ht hr
  obtain ⟨r, hr1, hok, pr, hpr, hu, hat, har, hap⟩ := hsrc a ha
  obtain ⟨r', hr2, hok', pr', hpr', hu', hbt, hbr, hbp⟩ := hsrc b hb
  rw [hap, hbp]
  apply hkey r hr1 r' hr2 hok hok' pr hpr pr' hpr' hu hu'
  · rw [← har, ← hbr, hr]
  · rw [← hat, ← hbt, ht]

/-- A run of the amended C4: the repositories `repoA`, `repoB` and `repoC`
with the client `client1`. -/
theorem snapshots_agree_of_distinct_keys_witness :
    (∀ r ∈ [repoA, repoB, repoC], ∀ r' ∈ [repoA, repoB, repoC],
      (client1.GetPullRequests r.ProjectKey r.Slug "OPEN").2 = none →
      (client1.GetPullRequests r'.ProjectKey r'.Slug "OPEN").2 = none →
      ∀ pr ∈ (client1.GetPullRequests r.ProjectKey r.Slug "OPEN").1,
      ∀ pr' ∈ (client1.GetPullRequests r'.ProjectKey r'.Slug "OPEN").1,
        pr.AuthorUserSlug = "me" → pr'.AuthorUserSlug = "me" → r.Slug = r'.Slug →
        pr.FromRefDisplayID = pr'.FromRefDisplayID → pr = pr') ∧
    allEvents client1 "me" [repoA, repoB, repoC] = [sentinelEvent1, fixEvent1, sentinelEvent3] ∧
    ∀ a ∈ allEvents client1 "me" [repoA, repoB, repoC],
      ∀ b ∈ allEvents client1 "me" [repoA, repoB, repoC],
        a.TaskID = b.TaskID → a.Repository = b.Repository → a.PullRequest = b.PullRequest :=
  ⟨by decide, rfl,
    (snapshots_agree_of_distinct_keys client1 "me" [repoA, repoB, repoC]).2 (by decide)⟩

/-- C8: when the listing of the open pull requests fails for a repository, its
`discoverComments` worker sends nothing and starts no `getComments` worker,
and the events of the run are the events of the other repositories: in every
run, once the channel is closed, the loop of `main` has received exactly the
events of the run over the list without the failing repository, in some
order, and there is a run over that list in which the loop receives the same
events in the same order, so with the same result: the same keys, pull
requests and comments.  Moreover the results of any run over the list and of
any run over the list without the failing repository have the same pairs as
keys, the same comments up to their order under every pair, and the same pull
request under every pair whose events carry one and the same pull request. -/
theorem failed_listing_isolated (c : Stash.Stash) (user : String)
    (before after : List Stash.Repository) (r : Stash.Repository) (err : String)
    (hfail : (c.GetPullRequests r.ProjectKey r.Slug "OPEN").2 = some err) :
    sent (discoverComments c user r) = [] ∧ spawned (discoverComments c user r) = [] ∧
    allEvents c user (before ++ r :: after) = allEvents c user (before ++ after) ∧
    (∀ s, Reachable c user (before ++ r :: after) s → s.closes = 1 →
      s.received.Perm (allEvents c user (before ++ after)) ∧
      ∃ s', Reachable c user (before ++ after) s' ∧ s'.closes = 1 ∧
        s'.received = s.received ∧ aggregate s'.received = aggregate s.received) ∧
    ∀ s s', Reachable c user (before ++ r :: after) s → s.closes = 1 →
      Reachable c user (before ++ after) s' → s'.closes = 1 → ∀ t k,
        ((aggregate s.received).find t k).isSome = ((aggregate s'.received).find t k).isSome ∧
        ∀ p p', (aggregate s.received).find t k = some p →
          (aggregate s'.received).find t k = some p' →
          p.Comments.Perm p'.Comments ∧
          ((∀ a ∈ s.received, ∀ b ∈ s.received, a.TaskID = b.TaskID →
              a.Repository = b.Repository → a.PullRequest = b.PullRequest) →
            p.PullRequest = p'.PullRequest) := by
  have hd := discoverComments_of_error c user r err hfail
  have hall : allEvents c user (before ++ r :: after) = allEvents c user (before ++ after) := by
    simp [allEvents, List.flatMap_append, List.flatMap_cons,
      repositoryEvents_of_error c user r err hfail]
  refine ⟨by rw [hd]; rfl, by rw [hd]; rfl, hall, ?_, ?_⟩
  · intro s hs hc
    refine ⟨?_, ?_⟩
    · rw [← hall]
      exact received_of_closed c user _ s hs hc
    · obtain ⟨s', hs', hr, hc'⟩ := reduced_run_of_run c user r err hfail before after s hs
      exact ⟨s', hs', by rw [hc', hc], hr, by rw [hr]⟩
  · intro s s' hs hc hs' hc' t k
    have h1 := received_of_closed c user _ s hs hc
    have h2 := received_of_closed c user _ s' hs' hc'
    rw [hall] at h1
    exact find_aggregate_of_perm s.received s'.received (h1.trans h2.symm) t k

/-- A run of C8: three repositories, the listing of the second fails; at the
end of `schedule3` the loop of `main` has received the events of `repoA` and
`repoC`. -/
theorem failed_listing_isolated_witness :
    (client1.GetPullRequests repoB.ProjectKey repoB.Slug "OPEN").2 = some "502" ∧
    sent (discoverComments client1 "me" repoB) = [] ∧
    spawned (discoverComments client1 "me" repoB) = [] ∧
    allEvents client1 "me" [repoA, repoB, repoC] = allEvents client1 "me" [repoA, repoC] ∧
    allEvents client1 "me" [repoA, repoC] = [sentinelEvent1, fixEvent1, sentinelEvent3] ∧
    runSchedule client1 "me" (System.init [repoA, repoB, repoC]) schedule3 = some final3 ∧
    final3.received.Perm (allEvents client1 "me" [repoA, repoC]) :=
  ⟨rfl,
    (failed_listing_isolated client1 "me" [repoA] [repoC] repoB "502" rfl).1,
    (failed_listing_isolated client1 "me" [repoA] [repoC] repoB "502" rfl).2.1,
    (failed_listing_isolated client1 "me" [repoA] [repoC] repoB "502" rfl).2.2.1,
    rfl, rfl,
    ((failed_listing_isolated client1 "me" [repoA] [repoC] repoB "502" rfl).2.2.2.1 final3
      ⟨schedule3, rfl⟩ rfl).1⟩

/-! ## The barrier -/

/-- C9, as stated, fails: with the repositories `repoB` and `repoC`, after the
goroutine of lines 124-133 has started the worker of `repoB` and that worker
has run to its end, the counter of the `WaitGroup` is zero while the worker of
`repoC` is still to be started. -/
theorem counter_zero_before_last_start :
    runSchedule client1 "me" (System.init [repoB, repoC]) [0, 0, 1, 1, 1] =
      some { orchestrator := [Effect.add, Effect.goDiscoverComments repoC, Effect.wait,
                              Effect.close],
             workers := [[]], wg := 0, received := [], closes := 0, fault := false } ∧
    hasToStart [Effect.add, Effect.goDiscoverComments repoC, Effect.wait, Effect.close] = true :=
  ⟨rfl, rfl⟩

/-- C9, amended: in the code of the goroutine of lines 124-133 and of every
worker, every start of a worker comes right after a `wg.Add(1)`, and a worker
runs `wg.Done()` once, as its last action, whatever the client returns.  In
every state of every run nothing has panicked; the counter is the number of
the workers that are running or about to be started; so it is not zero while a
worker is running (a worker that still has workers to start is running), and
when the goroutine of lines 124-133 is at `wg.Wait()` a counter of zero means
that every worker has returned; the channel is closed at most once, and only
when every worker has returned and none is left to start; a state in which no
goroutine can step is one after the close; every step takes one from a
number of steps left that the repositories and the client fix, so every run
is finite; and every run can be carried on to the close. -/
theorem barrier_counts_registered_workers (c : Stash.Stash) (user : String)
    (repos : List Stash.Repository) (schedule : List Nat) (s : System)
    (h : runSchedule c user (System.init repos) schedule = some s) :
    (OrchestratorCode (orchestrate repos) ∧
      (∀ r, WorkerCode (discoverComments c user r) ∧
        ∃ body, discoverComments c user r = body ++ [Effect.done] ∧
          ∀ e ∈ body, e ≠ Effect.done) ∧
      (∀ r pr f, WorkerCode (getComments c r pr f) ∧
        ∃ body, getComments c r pr f = body ++ [Effect.done] ∧
          ∀ e ∈ body, e ≠ Effect.done)) ∧
    s.fault = false ∧
    s.wg = registered s ∧
    (∀ w ∈ s.workers, w ≠ [] → 0 < s.wg) ∧
    (∀ rest, s.orchestrator = Effect.wait :: rest → s.wg = 0 → ∀ w ∈ s.workers, w = []) ∧
    s.closes ≤ 1 ∧
    (s.closes = 1 → s.orchestrator = [] ∧ ∀ w ∈ s.workers, w = []) ∧
    ((∀ i, step c user s i = none) → s.closes = 1) ∧
    schedule.length + stepsLeft c user s = stepsLeft c user (System.init repos) ∧
    ∃ more s', runSchedule c user s more = some s' ∧ s'.closes = 1 := by
  have inv := invariant_runSchedule c user schedule _ s h (invariant_init repos)
  have hcount := inv.count
  refine ⟨⟨orchestratorCode_orchestrate repos, ?_, ?_⟩, inv.fault, hcount, ?_, ?_, ?_,
    finished_of_closed s inv, ?_, stepsLeft_runSchedule c user schedule _ s h,
    exists_run_to_close c user _ s inv rfl⟩
  · intro r
    exact ⟨workerCode_discoverComments c user r,
      workerCode_done_last _ (workerCode_discoverComments c user r)⟩
  · intro r pr f
    exact ⟨workerCode_getComments c r pr f,
      workerCode_done_last _ (workerCode_getComments c r pr f)⟩
  · intro w hw hne
    have h1 := le_sum_map weight s.workers w hw
    have h2 : 1 ≤ weight w := by
      cases w with
      | nil => exact absurd rfl hne
      | cons e rest => simp [weight, running]
    simp only [registered] at hcount
    omega
  · intro rest ho hwg w hw
    apply weight_eq_zero
    apply sum_map_eq_zero weight s.workers _ w hw
    simp only [registered, ho, aboutToStart] at hcount
    omega
  · have hc := inv.closes
    split at hc <;> omega
  · intro hstuck
    have hfin := finished_of_stuck c user s inv hstuck
    have hc := inv.closes
    simpa [hfin.1] using hc

/-- A run of the amended C9: `schedule1` takes the run of `client1` over
`repoA` to its end. -/
theorem barrier_counts_registered_workers_witness :
    runSchedule client1 "me" (System.init [repoA]) schedule1 = some final1 ∧
    final1.fault = false ∧ final1.wg = registered final1 ∧ final1.closes ≤ 1 ∧
    schedule1.length + stepsLeft client1 "me" final1 =
      stepsLeft client1 "me" (System.init [repoA]) :=
  ⟨rfl,
    (barrier_counts_registered_workers client1 "me" [repoA] schedule1 final1 rfl).2.1,
    (barrier_counts_registered_workers client1 "me" [repoA] schedule1 final1 rfl).2.2.1,
    (barrier_counts_registered_workers client1 "me" [repoA] schedule1 final1 rfl).2.2.2.2.2.1,
    (barrier_counts_registered_workers client1 "me" [repoA] schedule1 final1 rfl).2.2.2.2.2.2.2.2.1⟩

/-! ## Rendering -/

/-- C10: `printComments` is total and writes exactly one line for every
comment with non-empty text, at every nesting depth, in depth-first pre-order,
with the indent extended by two spaces per level; a comment with empty text
writes no line of its own and its replies are rendered all the same. -/
theorem printComments_eq_spec (indent : String) (comments : List Stash.Comment)
    (review : GoMap String) :
    printComments indent comments review = printCommentsSpec indent comments review ∧
    (printComments indent comments review).length =
      ((preorderAll 0 comments).filter fun dc => decide (dc.2.Text ≠ "")).length ∧
    ∀ (author : String) (replies : List Stash.Comment),
      printComments indent [Stash.Comment.mk author "" replies] review =
        printComments (indent ++ "  ") replies review := by
  have h := printCommentsAux_eq indent review 0 comments
  have h0 : indent ++ String.mk (List.replicate (2 * 0) ' ') = indent := by
    apply String.ext
    simp
  rw [h0] at h
  refine ⟨h, ?_, ?_⟩
  · simp only [printComments, h, List.length_map]
  · intro author replies
    simp [printComments, printCommentsAux, printComment]

end Mypr
